import Mathlib

/-! AVLSet and HashSet.

A shallow embedding of `AVLSet.hpp` and `HashSet.hpp`.

* A `Node*` of the tree is a value of `AVLSet.Node`: `nullptr`, or a node owning its two
  children.  Dereferencing `nullptr` is a fault, rendered as `none`.
* The `while` loop of `AVLSet::add` is run with a bound on the number of executions of its
  body; `none` means that the bound was reached with the loop still running.
* Where the question is whether two trees share nodes (the copy), `clone` and `add` are
  given a second time on a heap of `Node` objects addressed by position.
* A bucket array is a list of chains, a chain is the list of the values of its nodes from
  the head on.
* An operation on two sets (copy, move) returns the new value of each set it writes.
* `unsigned int` sizes, capacities and hash values are natural numbers, without the
  reduction modulo `2^32`: the embedding follows the code as long as the capacity stays
  below `2^31`, which the growth `10, 21, 43, ...` leaves only after more than two
  thousand million insertions.
-/

/-! ## AVLSet.hpp -/

/-- A pointer to a tree node: `nullptr`, or a node with its `left` child, `value`, `right`
child. -/
inductive AVLSet.Node (α : Type) where
  | nullptr : AVLSet.Node α
  | node (left : AVLSet.Node α) (value : α) (right : AVLSet.Node α) : AVLSet.Node α
deriving DecidableEq, Repr

/-- The member variables of an `AVLSet`. -/
structure AVLSet (α : Type) where
  head : AVLSet.Node α
  treeHeight : Int
  treeSize : Nat
deriving DecidableEq, Repr

namespace AVLSet

open Node

variable {α : Type}

/-- `AVLSet::calculateHeight`: `-1` for `nullptr`, else one more than the larger of the
heights of the two children. -/
def calculateHeight : Node α → Int
  | nullptr => -1
  | node left _ right => max (calculateHeight left) (calculateHeight right) + 1

/-- `AVLSet::AVLSet(bool shouldBalance)`: the parameter is not read. -/
def new (_shouldBalance : Bool) : AVLSet α :=
  { head := nullptr, treeHeight := -1, treeSize := 0 }

/-- The descent loop of `AVLSet::add` followed by the linking of the new node, started with
`current` at the given node.  Each execution of the loop body uses one unit of `fuel`.
When `current->value` is neither greater nor less than `element`, the body leaves `current`
where it is and the loop goes round again. -/
def addLoop [LinearOrder α] : Nat → Node α → α → Option (Node α)
  | _, nullptr, element => some (node nullptr element nullptr)
  | 0, node _ _ _, _ => none
  | fuel + 1, node left value right, element =>
    if value > element then
      (addLoop fuel left element).map (fun l => node l value right)
    else if value < element then
      (addLoop fuel right element).map (fun r => node left value r)
    else
      addLoop fuel (node left value right) element

/-- `AVLSet::add`.  With `treeSize == 0` the element becomes the root.  Otherwise the loop
runs from `head`; when `head` is `nullptr` the loop body never runs, `direction` stays
empty and nothing is linked.  In every case that reaches the end of the function the
height is recomputed and `treeSize` is incremented. -/
def add [LinearOrder α] (fuel : Nat) (s : AVLSet α) (element : α) : Option (AVLSet α) :=
  if s.treeSize = 0 then
    let newNode : Node α := node nullptr element nullptr
    some { head := newNode, treeHeight := calculateHeight newNode, treeSize := s.treeSize + 1 }
  else
    match s.head with
    | nullptr =>
      some { head := nullptr, treeHeight := calculateHeight (nullptr : Node α),
             treeSize := s.treeSize + 1 }
    | node left value right =>
      (addLoop fuel (node left value right) element).map
        (fun h => { head := h, treeHeight := calculateHeight h, treeSize := s.treeSize + 1 })

/-- A sequence of `add` calls, each with the same bound on its loop. -/
def addAll [LinearOrder α] (fuel : Nat) : AVLSet α → List α → Option (AVLSet α)
  | s, [] => some s
  | s, element :: rest => (add fuel s element).bind (fun s1 => addAll fuel s1 rest)

/-- `AVLSet::maxHeight`: `0` for `nullptr`, else one more than the larger of the two
children. -/
def maxHeight : Node α → Int
  | nullptr => 0
  | node left _ right => max (maxHeight left) (maxHeight right) + 1

/-- `AVLSet::difference`: reads `node->left` and `node->right`, a fault on `nullptr`. -/
def difference : Node α → Option Int
  | nullptr => none
  | node left _ right => some (maxHeight left - maxHeight right)

/-- The search loop of `AVLSet::contains`. -/
def containsLoop [LinearOrder α] : Node α → α → Bool
  | nullptr, _ => false
  | node left value right, element =>
    if value > element then containsLoop left element
    else if value < element then containsLoop right element
    else true

/-- The expression `newHead->left->right->value` printed by `AVLSet::contains`: a fault
unless `newHead`, its left child and that child's right child all exist. -/
def leftRightValue : Node α → Option α
  | node (node _ _ (node _ value _)) _ _ => some value
  | _ => none

/-- `AVLSet::contains`: first `difference(head)` and `head->left->right->value` are
evaluated (their values are only printed), then the search loop runs. -/
def contains [LinearOrder α] (s : AVLSet α) (element : α) : Option Bool :=
  (difference s.head).bind fun _ =>
  (leftRightValue s.head).bind fun _ =>
  some (containsLoop s.head element)

/-- `AVLSet::size`. -/
def size (s : AVLSet α) : Nat := s.treeSize

/-- `AVLSet::height`. -/
def height (s : AVLSet α) : Int := s.treeHeight

/-- `AVLSet::in`: the values passed to `visit`, in call order. -/
def in_ : Node α → List α
  | nullptr => []
  | node left value right => in_ left ++ value :: in_ right

/-- `AVLSet::inorder`: the values passed to `visit`, in call order. -/
def inorder (s : AVLSet α) : List α := in_ s.head

/-- Every value stored under the node satisfies `p`. -/
def allValues (p : α → Bool) : Node α → Bool
  | nullptr => true
  | node left value right => allValues p left && p value && allValues p right

/-- Binary-search-tree order at every node: all values of the left subtree are less than
the node value, all values of the right subtree are greater. -/
def isBST [LinearOrder α] : Node α → Bool
  | nullptr => true
  | node left value right =>
    allValues (fun x => decide (x < value)) left &&
    allValues (fun x => decide (value < x)) right &&
    isBST left && isBST right

/-- At every node the heights of the two subtrees differ by at most one. -/
def isBalanced : Node α → Bool
  | nullptr => true
  | node left _ right =>
    decide (Int.natAbs (calculateHeight left - calculateHeight right) ≤ 1) &&
    isBalanced left && isBalanced right

/-- `AVLSet::clone`: a new node for every node, with the same value, holding the clones of
the two children. -/
def clone : Node α → Node α
  | nullptr => nullptr
  | node left value right => node (clone left) value (clone right)

/-- `AVLSet::AVLSet(const AVLSet& s)`: the new object. -/
def copyConstruct (s : AVLSet α) : AVLSet α :=
  { head := clone s.head, treeHeight := s.treeHeight, treeSize := s.treeSize }

/-- `AVLSet::operator=(const AVLSet& s)` on two distinct objects: the new value of the
assigned object.  Its former nodes are not released. -/
def copyAssign (_self s : AVLSet α) : AVLSet α :=
  { head := clone s.head, treeHeight := s.treeHeight, treeSize := s.treeSize }

/-- `AVLSet::AVLSet(AVLSet&& s)`: the new object is set up empty and its three members are
swapped with those of `s`.  The result is the new object, then `s` after the call. -/
def moveConstruct (s : AVLSet α) : AVLSet α × AVLSet α :=
  let fresh : AVLSet α := { head := nullptr, treeHeight := -1, treeSize := 0 }
  ({ head := s.head, treeHeight := s.treeHeight, treeSize := s.treeSize },
   { head := fresh.head, treeHeight := fresh.treeHeight, treeSize := fresh.treeSize })

/-- `AVLSet::operator=(AVLSet&& s)`: the three members are swapped.  The result is the
assigned object, then `s`, both after the call. -/
def moveAssign (self s : AVLSet α) : AVLSet α × AVLSet α :=
  ({ head := s.head, treeHeight := s.treeHeight, treeSize := s.treeSize },
   { head := self.head, treeHeight := self.treeHeight, treeSize := self.treeSize })

/-- `AVLSet::pre`: the values passed to `visit`, in call order. -/
def pre : Node α → List α
  | nullptr => []
  | node left value right => value :: (pre left ++ pre right)

/-- `AVLSet::post`: the values passed to `visit`, in call order. -/
def post : Node α → List α
  | nullptr => []
  | node left value right => post left ++ post right ++ [value]

/-- `AVLSet::preorder`: the values passed to `visit`, in call order. -/
def preorder (s : AVLSet α) : List α := pre s.head

/-- `AVLSet::postorder`: the values passed to `visit`, in call order. -/
def postorder (s : AVLSet α) : List α := post s.head

/-- `AVLSet::pre` with the effect of the calls of `visit` made explicit: `visit` turns the
state of the caller before a call into the state after it. -/
def preVisit {σ : Type} (visit : σ → α → σ) : Node α → σ → σ
  | nullptr, st => st
  | node left value right, st => preVisit visit right (preVisit visit left (visit st value))

/-- `AVLSet::in` with the effect of the calls of `visit` made explicit. -/
def inVisit {σ : Type} (visit : σ → α → σ) : Node α → σ → σ
  | nullptr, st => st
  | node left value right, st => inVisit visit right (visit (inVisit visit left st) value)

/-- `AVLSet::post` with the effect of the calls of `visit` made explicit. -/
def postVisit {σ : Type} (visit : σ → α → σ) : Node α → σ → σ
  | nullptr, st => st
  | node left value right, st => visit (postVisit visit right (postVisit visit left st)) value

/-- The degenerate tree in which every node has an empty left subtree: the values of the
list from the root down the right spine. -/
def rightChain : List α → Node α
  | [] => nullptr
  | value :: rest => node nullptr value (rightChain rest)

/-- `AVLSet::rrRotation`: `temp = parent->right` takes the place of `parent`, which
becomes its left child and receives the former left subtree of `temp` as right subtree.
A fault when `parent` or `parent->right` is `nullptr`. -/
def rrRotation : Node α → Option (Node α)
  | node left value (node tempLeft tempValue tempRight) =>
    some (node (node left value tempLeft) tempValue tempRight)
  | _ => none

/-- `AVLSet::llRotation`: `temp = parent->left` takes the place of `parent`, which becomes
its right child and receives the former right subtree of `temp` as left subtree.  A fault
when `parent` or `parent->left` is `nullptr`. -/
def llRotation : Node α → Option (Node α)
  | node (node tempLeft tempValue tempRight) value right =>
    some (node tempLeft tempValue (node tempRight value right))
  | _ => none

/-- `AVLSet::lrRotation`: `parent->left = rrRotation(parent->left)`, then
`llRotation(parent)`. -/
def lrRotation : Node α → Option (Node α)
  | nullptr => none
  | node left value right =>
    (rrRotation left).bind fun rotated => llRotation (node rotated value right)

/-- `AVLSet::rlRotation`: `parent->right = llRotation(parent->right)`, then
`rrRotation(parent)`. -/
def rlRotation : Node α → Option (Node α)
  | nullptr => none
  | node left value right =>
    (llRotation right).bind fun rotated => rrRotation (node left value rotated)

/-- `AVLSet::balance`. -/
def balance (T : Node α) : Option (Node α) :=
  (difference T).bind fun factor =>
    match T with
    | nullptr => none
    | node left _ right =>
      if factor > 1 then
        (difference left).bind fun leftFactor =>
          if leftFactor > 0 then llRotation T else lrRotation T
      else if factor < -1 then
        (difference right).bind fun rightFactor =>
          if rightFactor > 0 then rlRotation T else rrRotation T
      else some T

/-- The number of nodes of a tree. -/
def countNodes : Node α → Nat
  | nullptr => 0
  | node left _ right => countNodes left + 1 + countNodes right

/-! ### The nodes as objects of a heap

The definitions above treat a tree as a value.  Whether two sets share nodes cannot be
said on values, so `clone` and `add` are given once more on a heap of `Node` objects: an
address is a position in the list of the objects allocated so far, `new Node()` appends an
object, and `none` is `nullptr`.  A result `none` of an operation is a fault (a read or
write through an address that holds no object) or a bound reached. -/

/-- One `Node` object: its `value` and the addresses in its `right` and `left` members. -/
structure HeapNode (α : Type) where
  value : α
  right : Option Nat
  left : Option Nat
deriving DecidableEq, Repr

/-- The members of an `AVLSet` whose nodes live in a heap: `head` is an address. -/
structure HeapSet where
  head : Option Nat
  treeHeight : Int
  treeSize : Nat
deriving DecidableEq, Repr

/-- The address `p` leads, in the heap, to the nodes of the tree `t`, all of them at
addresses from `lo` up to but not including `hi`. -/
inductive RepresentsIn (lo hi : Nat) (heap : List (HeapNode α)) : Option Nat → Node α → Prop where
  | null : RepresentsIn lo hi heap none nullptr
  | node (a : Nat) (c : HeapNode α) (l r : Node α) :
      lo ≤ a → a < hi → heap[a]? = some c →
      RepresentsIn lo hi heap c.left l → RepresentsIn lo hi heap c.right r →
      RepresentsIn lo hi heap (some a) (node l c.value r)

/-- The assignment `p->right = q`. -/
def writeRight (heap : List (HeapNode α)) (p : Nat) (q : Option Nat) :
    Option (List (HeapNode α)) :=
  (heap[p]?).map (fun c => heap.set p { value := c.value, right := q, left := c.left })

/-- The assignment `p->left = q`. -/
def writeLeft (heap : List (HeapNode α)) (p : Nat) (q : Option Nat) :
    Option (List (HeapNode α)) :=
  (heap[p]?).map (fun c => heap.set p { value := c.value, right := c.right, left := q })

/-- `AVLSet::clone` on the heap: `temp = new Node()`, the value is copied, then
`temp->right` and `temp->left` receive the clones of the children.  The bound is on the
depth of the recursion.  The result is the heap after the call and the address
returned. -/
def cloneH : Nat → List (HeapNode α) → Option Nat → Option (List (HeapNode α) × Option Nat)
  | _, heap, none => some (heap, none)
  | 0, _, some _ => none
  | fuel + 1, heap, some source =>
    (heap[source]?).bind fun c =>
    let temp := heap.length
    let heap1 := heap ++ [{ value := c.value, right := none, left := none }]
    (heap1[source]?).bind fun c1 =>
    (cloneH fuel heap1 c1.right).bind fun r =>
    (writeRight r.1 temp r.2).bind fun heap3 =>
    (heap3[source]?).bind fun c3 =>
    (cloneH fuel heap3 c3.left).bind fun l =>
    (writeLeft l.1 temp l.2).bind fun heap5 =>
    some (heap5, some temp)

/-- `AVLSet::calculateHeight` on the heap, with a bound on the depth of the recursion. -/
def calculateHeightH : Nat → List (HeapNode α) → Option Nat → Option Int
  | _, _, none => some (-1)
  | 0, _, some _ => none
  | fuel + 1, heap, some source =>
    (heap[source]?).bind fun c =>
    (calculateHeightH fuel heap c.left).bind fun leftDepth =>
    (calculateHeightH fuel heap c.right).bind fun rightDepth =>
    some (max leftDepth rightDepth + 1)

/-- The values of the local `direction` of `AVLSet::add`: the empty string, `"left"`,
`"right"`. -/
inductive Direction where
  | unset : Direction
  | left : Direction
  | right : Direction
deriving DecidableEq, Repr

/-- The descent loop of `AVLSet::add` on the heap, with the locals `current`, `previous`
and `direction`; the result is `previous` and `direction` at the exit of the loop. -/
def addLoopH [LinearOrder α] :
    Nat → List (HeapNode α) → Option Nat → Option Nat → Direction → α →
      Option (Option Nat × Direction)
  | _, _, none, previous, direction, _ => some (previous, direction)
  | 0, _, some _, _, _, _ => none
  | fuel + 1, heap, some current, _, direction, element =>
    (heap[current]?).bind fun c =>
    if c.value > element then addLoopH fuel heap c.left (some current) Direction.left element
    else if c.value < element then
      addLoopH fuel heap c.right (some current) Direction.right element
    else addLoopH fuel heap (some current) (some current) direction element

/-- The part of `AVLSet::add` that allocates and links the new node, on the heap: the
result is the heap and `head` after it. -/
def linkH [LinearOrder α] (fuel : Nat) (heap : List (HeapNode α)) (s : HeapSet) (element : α) :
    Option (List (HeapNode α) × Option Nat) :=
  let fresh : HeapNode α := { value := element, right := none, left := none }
  if s.treeSize = 0 then
    some (heap ++ [fresh], some heap.length)
  else
    (addLoopH fuel heap s.head none Direction.unset element).bind fun exit =>
    match exit.2 with
    | Direction.right =>
      exit.1.bind fun previous =>
      (writeRight (heap ++ [fresh]) previous (some heap.length)).map (fun h => (h, s.head))
    | Direction.left =>
      exit.1.bind fun previous =>
      (writeLeft (heap ++ [fresh]) previous (some heap.length)).map (fun h => (h, s.head))
    | Direction.unset => some (heap, s.head)

/-- `AVLSet::add` on the heap: the heap and the members of the set after the call. -/
def addH [LinearOrder α] (fuel : Nat) (heap : List (HeapNode α)) (s : HeapSet) (element : α) :
    Option (List (HeapNode α) × HeapSet) :=
  (linkH fuel heap s element).bind fun linked =>
  (calculateHeightH fuel linked.1 linked.2).map fun h =>
    (linked.1, { head := linked.2, treeHeight := h, treeSize := s.treeSize + 1 })

end AVLSet

/-! ## HashSet.hpp -/

/-- The member variables of a `HashSet`.  `hashTable` is the bucket array: one chain per
cell, a chain being the values of its nodes from the head on. -/
structure HashSet (α : Type) where
  hashFunction : α → Nat
  hashSize : Nat
  hashCapacity : Nat
  hashTable : List (List α)

namespace HashSet

variable {α : Type}

/-- `HashSet::DEFAULT_CAPACITY`. -/
def DEFAULT_CAPACITY : Nat := 10

/-- `HashSet::HashSet(HashFunction)`: `DEFAULT_CAPACITY` empty cells, size zero. -/
def new (hashFunction : α → Nat) : HashSet α :=
  { hashFunction := hashFunction, hashSize := 0, hashCapacity := DEFAULT_CAPACITY,
    hashTable := List.replicate DEFAULT_CAPACITY [] }

/-- The array read `table[index]`; the empty chain stands for a cell outside the list. -/
def cellAt (table : List (List α)) (index : Nat) : List α := table.getD index []

/-- The chain walk of `contains` and `isElementAtIndex`: `true` at the first node whose
value equals `element`, `false` at the end of the chain. -/
def findInChain [DecidableEq α] (element : α) : List α → Bool
  | [] => false
  | value :: next => if value = element then true else findInChain element next

/-- `HashSet::contains`. -/
def contains [DecidableEq α] (s : HashSet α) (element : α) : Bool :=
  let index := s.hashFunction element % s.hashCapacity
  findInChain element (cellAt s.hashTable index)

/-- The walk to the last node of a chain and the linking of a new node after it; on the
empty chain the new node becomes the head. -/
def linkLast : List α → α → List α
  | [], value => [value]
  | first :: next, value => first :: linkLast next value

/-- A new node holding `value` is linked at the end of the chain of cell `index`. -/
def appendAt (table : List (List α)) (index : Nat) (value : α) : List (List α) :=
  table.set index (linkLast (cellAt table index) value)

/-- The inner `while` loop of the resize branch of `add`: each node of an old chain is
copied to the end of the chain of cell `i` of the new array. -/
def copyChain (newHashTable : List (List α)) (i : Nat) (oldChain : List α) : List (List α) :=
  oldChain.foldl (fun table value => appendAt table i value) newHashTable

/-- The `for` loop of the resize branch of `add`: for every `i` below the old capacity the
chain of old cell `i` is copied to new cell `i`. -/
def copyTable (hashTable : List (List α)) (hashCapacity : Nat) (newHashTable : List (List α)) :
    List (List α) :=
  (List.range hashCapacity).foldl
    (fun table i => copyChain table i (cellAt hashTable i)) newHashTable

/-- `HashSet::add`.  The test `hashSize > 0.8*hashCapacity` is written over the integers as
`5 * hashSize > 4 * hashCapacity`.  The two agree on all 32-bit values: the `double`
nearest to `0.8` exceeds it by `0.4 * 2^-53`, so for a capacity that is a multiple of 5 the
product rounds to the integer `4 * hashCapacity / 5` itself, and for any other capacity the
product is off by less than `10^-6` from a number at distance at least `0.2` from every
integer. -/
def add [DecidableEq α] (s : HashSet α) (element : α) : HashSet α :=
  if contains s element = false then
    if 5 * s.hashSize > 4 * s.hashCapacity then
      let newCapacity := s.hashCapacity * 2 + 1
      let newHashTable := copyTable s.hashTable s.hashCapacity (List.replicate newCapacity [])
      let cell := s.hashFunction element % newCapacity
      { hashFunction := s.hashFunction, hashSize := s.hashSize + 1,
        hashCapacity := newCapacity, hashTable := appendAt newHashTable cell element }
    else
      let index := s.hashFunction element % s.hashCapacity
      { hashFunction := s.hashFunction, hashSize := s.hashSize + 1,
        hashCapacity := s.hashCapacity, hashTable := appendAt s.hashTable index element }
  else s

/-- A sequence of `add` calls on one set. -/
def addAll [DecidableEq α] (s : HashSet α) (elements : List α) : HashSet α :=
  elements.foldl add s

/-- `HashSet::size`. -/
def size (s : HashSet α) : Nat := s.hashSize

/-- `HashSet::getCapacity`. -/
def getCapacity (s : HashSet α) : Nat := s.hashCapacity

/-- The counting loop of `elementsAtIndex`, started with the given `counter`. -/
def countChain : List α → Nat → Nat
  | [], counter => counter
  | _ :: next, counter => countChain next (counter + 1)

/-- `HashSet::elementsAtIndex`. -/
def elementsAtIndex (s : HashSet α) (index : Nat) : Nat :=
  if index ≥ s.hashCapacity then 0 else countChain (cellAt s.hashTable index) 0

/-- `HashSet::isElementAtIndex`. -/
def isElementAtIndex [DecidableEq α] (s : HashSet α) (element : α) (index : Nat) : Bool :=
  if index ≥ s.hashCapacity then false else findInChain element (cellAt s.hashTable index)

/-- `impl_::HashSet__undefinedHashFunction`. -/
def HashSet__undefinedHashFunction (_element : α) : Nat := 0

/-- The copy loop shared by the copy constructor and the copy assignment: a new array of
`hashCapacity` cells, cell `i` receiving the nodes of the chain of `s.hashTable[i]` in
order. -/
def copyBuckets (s : HashSet α) : List (List α) :=
  copyTable s.hashTable s.hashCapacity (List.replicate s.hashCapacity [])

/-- `HashSet::HashSet(const HashSet& s)`: the new object.  Its hash function is
`HashSet__undefinedHashFunction`, not the one of `s`. -/
def copyConstruct (s : HashSet α) : HashSet α :=
  { hashFunction := HashSet__undefinedHashFunction, hashSize := s.hashSize,
    hashCapacity := s.hashCapacity, hashTable := copyBuckets s }

/-- `HashSet::operator=(const HashSet& s)` on two distinct objects: the new value of the
assigned object, which keeps its own hash function. -/
def copyAssign (self s : HashSet α) : HashSet α :=
  { hashFunction := self.hashFunction, hashSize := s.hashSize,
    hashCapacity := s.hashCapacity, hashTable := copyBuckets s }

/-- `HashSet::HashSet(HashSet&& s)`: the new object is set up with
`HashSet__undefinedHashFunction`, size zero and `DEFAULT_CAPACITY` empty cells, then
capacity, size and array are swapped with those of `s`.  The result is the new object,
then `s` after the call. -/
def moveConstruct (s : HashSet α) : HashSet α × HashSet α :=
  ({ hashFunction := HashSet__undefinedHashFunction, hashSize := s.hashSize,
     hashCapacity := s.hashCapacity, hashTable := s.hashTable },
   { hashFunction := s.hashFunction, hashSize := 0, hashCapacity := DEFAULT_CAPACITY,
     hashTable := List.replicate DEFAULT_CAPACITY [] })

/-- `HashSet::operator=(HashSet&& s)`: size, capacity and array are swapped, the hash
functions stay.  The result is the assigned object, then `s`, both after the call. -/
def moveAssign (self s : HashSet α) : HashSet α × HashSet α :=
  ({ hashFunction := self.hashFunction, hashSize := s.hashSize,
     hashCapacity := s.hashCapacity, hashTable := s.hashTable },
   { hashFunction := s.hashFunction, hashSize := self.hashSize,
     hashCapacity := self.hashCapacity, hashTable := self.hashTable })

/-- The number of values of an `unsigned int` of 32 bits. -/
def UINT_RANGE : Nat := 4294967296

/-- `HashSet::add` with the two `unsigned int` computations `hashCapacity * 2 + 1` and
`hashSize += 1` reduced modulo `2^32`.  Writes of the copy loop to cells beyond the end of
a new array shorter than the old one are dropped. -/
def add32 [DecidableEq α] (s : HashSet α) (element : α) : HashSet α :=
  if contains s element = false then
    if 5 * s.hashSize > 4 * s.hashCapacity then
      let newCapacity := (s.hashCapacity * 2 + 1) % UINT_RANGE
      let newHashTable := copyTable s.hashTable s.hashCapacity (List.replicate newCapacity [])
      let cell := s.hashFunction element % newCapacity
      { hashFunction := s.hashFunction, hashSize := (s.hashSize + 1) % UINT_RANGE,
        hashCapacity := newCapacity, hashTable := appendAt newHashTable cell element }
    else
      let index := s.hashFunction element % s.hashCapacity
      { hashFunction := s.hashFunction, hashSize := (s.hashSize + 1) % UINT_RANGE,
        hashCapacity := s.hashCapacity, hashTable := appendAt s.hashTable index element }
  else s

/-- The states of the sets of a program that constructs sets and calls `add`, the copy
operations and the move operations on them, `add` being the given function. -/
inductive ReachableBy (addFn : HashSet α → α → HashSet α) : HashSet α → Prop where
  | construct (hashFunction : α → Nat) : ReachableBy addFn (new hashFunction)
  | add (s : HashSet α) (element : α) : ReachableBy addFn s → ReachableBy addFn (addFn s element)
  | copyConstruct (s : HashSet α) : ReachableBy addFn s → ReachableBy addFn (copyConstruct s)
  | copyAssign (self s : HashSet α) : ReachableBy addFn self → ReachableBy addFn s →
      ReachableBy addFn (copyAssign self s)
  | moveConstructNew (s : HashSet α) : ReachableBy addFn s →
      ReachableBy addFn (moveConstruct s).1
  | moveConstructSource (s : HashSet α) : ReachableBy addFn s →
      ReachableBy addFn (moveConstruct s).2
  | moveAssignTarget (self s : HashSet α) : ReachableBy addFn self → ReachableBy addFn s →
      ReachableBy addFn (moveAssign self s).1
  | moveAssignSource (self s : HashSet α) : ReachableBy addFn self → ReachableBy addFn s →
      ReachableBy addFn (moveAssign self s).2

end HashSet

/-! ## Lemmas on the bucket array -/

namespace HashSet

variable {α : Type}

theorem linkLast_eq (chain : List α) (value : α) : linkLast chain value = chain ++ [value] := by
  induction chain with
  | nil => rfl
  | cons first next ih => simp [linkLast, ih]

theorem countChain_eq (chain : List α) (counter : Nat) :
    countChain chain counter = counter + chain.length := by
  induction chain generalizing counter with
  | nil => simp [countChain]
  | cons first next ih => simp [countChain, ih]; omega

theorem findInChain_iff [DecidableEq α] (element : α) (chain : List α) :
    findInChain element chain = true ↔ element ∈ chain := by
  induction chain with
  | nil => simp [findInChain]
  | cons value next ih =>
    by_cases h : value = element
    · simp [findInChain, h]
    · have h2 : ¬ element = value := fun h3 => h h3.symm
      simp [findInChain, h, h2, ih]

theorem length_appendAt (table : List (List α)) (index : Nat) (value : α) :
    (appendAt table index value).length = table.length := by
  simp [appendAt]

theorem cellAt_appendAt (table : List (List α)) (index j : Nat) (value : α) :
    cellAt (appendAt table index value) j =
      if j = index ∧ index < table.length then cellAt table index ++ [value]
      else cellAt table j := by
  unfold appendAt cellAt
  rw [linkLast_eq]
  simp only [List.getD_eq_getElem?_getD, List.getElem?_set]
  by_cases h1 : index = j
  · subst h1
    by_cases h2 : index < table.length
    · simp [h2]
    · rw [List.getElem?_eq_none (by omega)]
      simp [h2]
  · have h3 : ¬ j = index := fun h => h1 h.symm
    simp [h1, h3]

theorem set_cellAt_self (table : List (List α)) (i : Nat) :
    table.set i (cellAt table i) = table := by
  induction table generalizing i with
  | nil => simp
  | cons first rest ih =>
    cases i with
    | zero => simp [cellAt]
    | succ i =>
      have h := ih i
      simp only [cellAt, List.getD_eq_getElem?_getD] at h
      simp [cellAt, h]

theorem copyChain_eq (table : List (List α)) (i : Nat) (oldChain : List α)
    (hi : i < table.length) :
    copyChain table i oldChain = table.set i (cellAt table i ++ oldChain) := by
  induction oldChain generalizing table with
  | nil =>
    simp only [copyChain, List.foldl_nil, List.append_nil]
    exact (set_cellAt_self table i).symm
  | cons value rest ih =>
    have h1 : copyChain table i (value :: rest) = copyChain (appendAt table i value) i rest := rfl
    rw [h1, ih _ (by rw [length_appendAt]; exact hi), cellAt_appendAt]
    simp only [hi, and_self, if_true, appendAt, List.set_set, List.append_assoc,
      List.singleton_append]

theorem copyTable_take (hashTable : List (List α)) (n k : Nat) (hk : k ≤ hashTable.length)
    (hn : k ≤ n) :
    copyTable hashTable k (List.replicate n []) = hashTable.take k ++ List.replicate (n - k) [] := by
  induction k with
  | zero => simp [copyTable]
  | succ k ih =>
    have h1 : copyTable hashTable (k + 1) (List.replicate n []) =
        copyChain (copyTable hashTable k (List.replicate n [])) k (cellAt hashTable k) := by
      simp [copyTable, List.range_succ, List.foldl_append]
    rw [h1, ih (by omega) (by omega)]
    rw [copyChain_eq _ _ _ (by simp; omega)]
    apply List.ext_getElem?
    intro j
    simp only [cellAt, List.getD_eq_getElem?_getD, List.getElem?_set, List.getElem?_append,
      List.getElem?_take, List.getElem?_replicate, List.length_append, List.length_take,
      List.length_replicate]
    have e1 : min k hashTable.length = k := by omega
    have e2 : min (k + 1) hashTable.length = k + 1 := by omega
    rw [e1, e2]
    rcases Nat.lt_trichotomy j k with h | h | h
    · have h3 : ¬ k = j := by omega
      have h4 : j < k + 1 := by omega
      simp [h, h3, h4]
    · subst h
      have h5 : j < hashTable.length := by omega
      have h6 : j < n := by omega
      simp [h5, h6]
    · have h3 : ¬ k = j := by omega
      have h4 : ¬ j < k := by omega
      have h5 : ¬ j < k + 1 := by omega
      simp only [h3, h4, h5, if_false]
      by_cases h6 : j - k < n - k
      · have h7 : j - (k + 1) < n - (k + 1) := by omega
        simp [h6, h7]
      · have h7 : ¬ j - (k + 1) < n - (k + 1) := by omega
        simp [h6, h7]

theorem sum_length_appendAt (table : List (List α)) (i : Nat) (value : α)
    (hi : i < table.length) :
    ((appendAt table i value).map List.length).sum = (table.map List.length).sum + 1 := by
  induction table generalizing i with
  | nil => simp at hi
  | cons first rest ih =>
    cases i with
    | zero => simp [appendAt, cellAt, linkLast_eq]; omega
    | succ i =>
      have h := ih i (by simpa using hi)
      simp only [appendAt, cellAt, List.getD_eq_getElem?_getD] at h
      simp only [appendAt, cellAt, List.getD_eq_getElem?_getD, List.getElem?_cons_succ,
        List.set_cons_succ, List.map_cons, List.sum_cons, h]
      omega

theorem sum_length_append_replicate (table : List (List α)) (n : Nat) :
    ((table ++ List.replicate n []).map List.length).sum = (table.map List.length).sum := by
  simp

theorem sum_range_length_cellAt (table : List (List α)) (n : Nat) (hn : n ≤ table.length) :
    ∑ i ∈ Finset.range n, (cellAt table i).length = ((table.take n).map List.length).sum := by
  induction n with
  | zero => simp
  | succ n ih =>
    rw [Finset.sum_range_succ, ih (by omega), List.map_take, List.map_take,
      List.sum_take_succ _ _ (by simpa using hn)]
    simp [cellAt, List.getElem?_eq_getElem (show n < table.length by omega)]

/-- The facts kept by every `add`: the capacity is positive, the bucket array has one cell
per unit of capacity, and the chains together hold `hashSize` nodes. -/
theorem add_keeps_shape [DecidableEq α] (s : HashSet α) (element : α)
    (hc : 0 < s.hashCapacity) (hl : s.hashTable.length = s.hashCapacity)
    (hs : (s.hashTable.map List.length).sum = s.hashSize) :
    0 < (add s element).hashCapacity ∧
      (add s element).hashTable.length = (add s element).hashCapacity ∧
      ((add s element).hashTable.map List.length).sum = (add s element).hashSize := by
  unfold add
  by_cases h1 : contains s element = false
  · by_cases h2 : 5 * s.hashSize > 4 * s.hashCapacity
    · simp only [h1, h2, if_true]
      rw [copyTable_take _ _ _ (by omega) (by omega)]
      have h3 : s.hashFunction element % (s.hashCapacity * 2 + 1) < s.hashCapacity * 2 + 1 :=
        Nat.mod_lt _ (by omega)
      refine ⟨by omega, ?_, ?_⟩
      · simp [length_appendAt]; omega
      · rw [sum_length_appendAt _ _ _ (by simp; omega), sum_length_append_replicate,
          ← hl, List.take_length, hs]
    · simp only [h1, h2, if_true, if_false]
      have h3 : s.hashFunction element % s.hashCapacity < s.hashCapacity := Nat.mod_lt _ hc
      refine ⟨hc, ?_, ?_⟩
      · simp [length_appendAt, hl]
      · rw [sum_length_appendAt _ _ _ (by omega), hs]
  · simp only [h1, if_false]
    exact ⟨hc, hl, hs⟩

theorem addAll_keeps_shape [DecidableEq α] (elements : List α) (s : HashSet α)
    (hc : 0 < s.hashCapacity) (hl : s.hashTable.length = s.hashCapacity)
    (hs : (s.hashTable.map List.length).sum = s.hashSize) :
    0 < (addAll s elements).hashCapacity ∧
      (addAll s elements).hashTable.length = (addAll s elements).hashCapacity ∧
      ((addAll s elements).hashTable.map List.length).sum = (addAll s elements).hashSize := by
  induction elements generalizing s with
  | nil => exact ⟨hc, hl, hs⟩
  | cons element rest ih =>
    obtain ⟨h1, h2, h3⟩ := add_keeps_shape s element hc hl hs
    exact ih (add s element) h1 h2 h3

theorem new_shape (hashFunction : α → Nat) :
    0 < (new hashFunction).hashCapacity ∧
      (new hashFunction).hashTable.length = (new hashFunction).hashCapacity ∧
      ((new hashFunction).hashTable.map List.length).sum = (new hashFunction).hashSize := by
  simp [new, DEFAULT_CAPACITY]

end HashSet

/-! ## HashSet: the claims -/

namespace HashSet

variable {α : Type}

/-- C1, evaluated on the code.  With the identity as hash function on `unsigned int`,
after `add(10)`, ..., `add(18)` the capacity is 10 and `contains(10)` is true; the next call
`add(19)` grows the table to capacity 21, and `contains(10)` is then false: the resize
copies the chain of old cell `i` to new cell `i` (here cell 0) while `contains` looks in
cell `10 % 21 = 10`. -/
theorem contains_false_after_resize :
    contains (addAll (new id) [10, 11, 12, 13, 14, 15, 16, 17, 18]) 10 = true ∧
    getCapacity (addAll (new id) [10, 11, 12, 13, 14, 15, 16, 17, 18]) = 10 ∧
    getCapacity (add (addAll (new id) [10, 11, 12, 13, 14, 15, 16, 17, 18]) 19) = 21 ∧
    contains (add (addAll (new id) [10, 11, 12, 13, 14, 15, 16, 17, 18]) 19) 10 = false := by
  decide

/-- C5, evaluated on the code.  With the identity as hash function, the calls `add(10)`,
..., `add(19)`, `add(10)` name ten distinct elements and leave `size()` at 11: after the
resize at `add(19)` the element 10 is no longer found, so the second `add(10)` links a
second node for it. -/
theorem size_counts_duplicate_after_resize :
    size (addAll (new id) [10, 11, 12, 13, 14, 15, 16, 17, 18, 19, 10]) = 11 ∧
    [10, 11, 12, 13, 14, 15, 16, 17, 18, 19, 10].dedup.length = 10 := by
  decide

/-- C7, evaluated on the code.  With the identity as hash function, after `add(10)`, ...,
`add(19)` the capacity is 21 and the value 10 is stored in the chain of cell 0, although
`hash(10) mod capacity` is 10. -/
theorem bucket_placement_broken_after_resize :
    getCapacity (addAll (new id) [10, 11, 12, 13, 14, 15, 16, 17, 18, 19]) = 21 ∧
    isElementAtIndex (addAll (new id) [10, 11, 12, 13, 14, 15, 16, 17, 18, 19]) 10 0 = true ∧
    id 10 % getCapacity (addAll (new id) [10, 11, 12, 13, 14, 15, 16, 17, 18, 19]) = 10 := by
  decide

/-- C8, evaluated on the code.  After nine calls `add(0)`, ..., `add(8)` on a fresh set the
size is 9 and the capacity is still 10, so `size / capacity` is 0.9: the threshold test of
`add` reads the size before the insertion, and 8 does not exceed `0.8 * 10`. -/
theorem load_factor_exceeded_after_nine_adds :
    size (addAll (new id) [0, 1, 2, 3, 4, 5, 6, 7, 8]) = 9 ∧
    getCapacity (addAll (new id) [0, 1, 2, 3, 4, 5, 6, 7, 8]) = 10 ∧
    ¬ (5 * size (addAll (new id) [0, 1, 2, 3, 4, 5, 6, 7, 8]) ≤
        4 * getCapacity (addAll (new id) [0, 1, 2, 3, 4, 5, 6, 7, 8])) := by
  decide

/-- C9.  A fresh set has capacity 10 and size 0.  For every state and every element that
`contains` does not find, `add` sets the capacity to `2 * capacity + 1` when
`5 * size > 4 * capacity` held before the call and leaves it unchanged otherwise, and in
both cases the size grows by exactly one.  For an element that `contains` finds, `add`
changes neither the capacity nor the size. -/
theorem add_growth_rule [DecidableEq α] :
    (∀ hashFunction : α → Nat,
      getCapacity (new hashFunction) = 10 ∧ size (new hashFunction) = 0) ∧
    (∀ (s : HashSet α) (element : α), contains s element = false →
      (5 * size s > 4 * getCapacity s →
        getCapacity (add s element) = 2 * getCapacity s + 1) ∧
      (¬ 5 * size s > 4 * getCapacity s →
        getCapacity (add s element) = getCapacity s) ∧
      size (add s element) = size s + 1) ∧
    (∀ (s : HashSet α) (element : α), contains s element = true →
      getCapacity (add s element) = getCapacity s ∧ size (add s element) = size s) := by
  refine ⟨fun _ => ⟨rfl, rfl⟩, ?_, ?_⟩
  · intro s element hc
    refine ⟨?_, ?_, ?_⟩
    · intro hg
      simp only [size, getCapacity] at hg
      simp only [getCapacity, add, hc, hg, if_true]
      omega
    · intro hg
      simp only [size, getCapacity] at hg
      simp only [getCapacity, add, hc, hg, if_true, if_false]
    · by_cases hg : 5 * s.hashSize > 4 * s.hashCapacity
      · simp only [size, add, hc, hg, if_true]
      · simp only [size, add, hc, hg, if_true, if_false]
  · intro s element hc
    have h : add s element = s := by simp [add, hc]
    rw [h]
    exact ⟨rfl, rfl⟩

/-- The growth rule at a concrete state: the tenth distinct element added to a fresh set
meets size 9 and capacity 10, so the capacity becomes 21 and the size 10. -/
theorem add_growth_rule_witness :
    contains (addAll (new id) [0, 1, 2, 3, 4, 5, 6, 7, 8]) 9 = false ∧
    5 * size (addAll (new id) [0, 1, 2, 3, 4, 5, 6, 7, 8]) >
      4 * getCapacity (addAll (new id) [0, 1, 2, 3, 4, 5, 6, 7, 8]) ∧
    getCapacity (add (addAll (new id) [0, 1, 2, 3, 4, 5, 6, 7, 8]) 9) =
      2 * getCapacity (addAll (new id) [0, 1, 2, 3, 4, 5, 6, 7, 8]) + 1 :=
  ⟨by decide, by decide,
    ((add_growth_rule.2.1 (addAll (new id) [0, 1, 2, 3, 4, 5, 6, 7, 8]) 9 (by decide)).1
      (by decide))⟩

/-- C10.  In every state reached from a fresh set by `add` calls, the values of
`elementsAtIndex(i)` for `0 <= i < capacity` add up to `size()`. -/
theorem sum_elementsAtIndex_eq_size [DecidableEq α] (hashFunction : α → Nat)
    (elements : List α) :
    ∑ i ∈ Finset.range (getCapacity (addAll (new hashFunction) elements)),
        elementsAtIndex (addAll (new hashFunction) elements) i =
      size (addAll (new hashFunction) elements) := by
  obtain ⟨h2, h3, h4⟩ := addAll_keeps_shape elements (new hashFunction)
    (new_shape hashFunction).1 (new_shape hashFunction).2.1 (new_shape hashFunction).2.2
  have h5 : ∀ i ∈ Finset.range (getCapacity (addAll (new hashFunction) elements)),
      elementsAtIndex (addAll (new hashFunction) elements) i =
        (cellAt (addAll (new hashFunction) elements).hashTable i).length := by
    intro i hi
    have hi2 : ¬ i ≥ (addAll (new hashFunction) elements).hashCapacity := by
      simpa [getCapacity] using hi
    simp [elementsAtIndex, hi2, countChain_eq]
  rw [Finset.sum_congr rfl h5, getCapacity,
    sum_range_length_cellAt _ _ (by omega), ← h3, List.take_length, h4, size]

end HashSet

/-! ## Lemmas on the tree -/

namespace AVLSet

open Node

variable {α : Type}

theorem allValues_iff (p : α → Bool) (t : Node α) :
    allValues p t = true ↔ ∀ x ∈ in_ t, p x = true := by
  induction t with
  | nullptr => simp [allValues, in_]
  | node left value right ihl ihr =>
    simp only [allValues, in_, Bool.and_eq_true, ihl, ihr, List.mem_append, List.mem_cons]
    constructor
    · rintro ⟨⟨h1, h2⟩, h3⟩ x hx
      rcases hx with hx | hx | hx
      · exact h1 x hx
      · rw [hx]; exact h2
      · exact h3 x hx
    · intro h
      exact ⟨⟨fun x hx => h x (Or.inl hx), h value (Or.inr (Or.inl rfl))⟩,
        fun x hx => h x (Or.inr (Or.inr hx))⟩

theorem in_eq_nil (t : Node α) (h : in_ t = []) : t = nullptr := by
  cases t with
  | nullptr => rfl
  | node left value right => simp [in_] at h

theorem isBST_pairwise [LinearOrder α] (t : Node α) (h : isBST t = true) :
    (in_ t).Pairwise (fun a b => a < b) := by
  induction t with
  | nullptr => simp [in_]
  | node left value right ihl ihr =>
    simp only [isBST, Bool.and_eq_true, allValues_iff, decide_eq_true_eq] at h
    obtain ⟨⟨⟨h1, h2⟩, h3⟩, h4⟩ := h
    simp only [in_, List.pairwise_append, List.pairwise_cons, List.mem_cons]
    refine ⟨ihl h3, ⟨h2, ihr h4⟩, ?_⟩
    intro a ha b hb
    rcases hb with hb | hb
    · rw [hb]; exact h1 a ha
    · exact lt_trans (h1 a ha) (h2 b hb)

/-- On a tree without `element`, and with one unit of fuel per node, the descent reaches
an empty slot and links the new node there. -/
theorem addLoop_spec [LinearOrder α] (t : Node α) (element : α) (fuel : Nat)
    (hne : element ∉ in_ t) (hf : (in_ t).length ≤ fuel) :
    ∃ t1, addLoop fuel t element = some t1 ∧ (in_ t1).Perm (element :: in_ t) ∧
      (isBST t = true → isBST t1 = true) := by
  induction t generalizing fuel with
  | nullptr =>
    refine ⟨node nullptr element nullptr, ?_, ?_, ?_⟩
    · cases fuel <;> rfl
    · simp [in_]
    · intro _
      simp [isBST, allValues]
  | node left value right ihl ihr =>
    simp only [in_, List.mem_append, List.mem_cons, not_or] at hne
    obtain ⟨hnl, hnv, hnr⟩ := hne
    simp only [in_, List.length_append, List.length_cons] at hf
    cases fuel with
    | zero => omega
    | succ fuel =>
      rcases lt_trichotomy element value with hlt | heq | hgt
      · obtain ⟨l1, hl1, hp, hb⟩ := ihl fuel hnl (by omega)
        refine ⟨node l1 value right, ?_, ?_, ?_⟩
        · simp [addLoop, hlt, hl1]
        · simpa [in_] using hp.append_right (value :: in_ right)
        · intro h
          simp only [isBST, Bool.and_eq_true, allValues_iff, decide_eq_true_eq] at h ⊢
          obtain ⟨⟨⟨h1, h2⟩, h3⟩, h4⟩ := h
          refine ⟨⟨⟨?_, h2⟩, hb h3⟩, h4⟩
          intro x hx
          rcases List.mem_cons.1 (hp.mem_iff.1 hx) with hx | hx
          · rw [hx]; exact hlt
          · exact h1 x hx
      · exact absurd heq hnv
      · obtain ⟨r1, hr1, hp, hb⟩ := ihr fuel hnr (by omega)
        refine ⟨node left value r1, ?_, ?_, ?_⟩
        · have h1 : ¬ value > element := not_lt.2 (le_of_lt hgt)
          simp [addLoop, h1, hgt, hr1]
        · have h2 : (in_ left ++ value :: in_ r1).Perm
              (in_ left ++ value :: element :: in_ right) :=
            (hp.cons value).append_left (in_ left)
          have h3 : (in_ left ++ value :: element :: in_ right).Perm
              (element :: (in_ left ++ value :: in_ right)) := by
            have h4 := @List.perm_middle α element (in_ left ++ [value]) (in_ right)
            simpa using h4
          simpa [in_] using h2.trans h3
        · intro h
          simp only [isBST, Bool.and_eq_true, allValues_iff, decide_eq_true_eq] at h ⊢
          obtain ⟨⟨⟨h1, h2⟩, h3⟩, h4⟩ := h
          refine ⟨⟨⟨h1, ?_⟩, h3⟩, hb h4⟩
          intro x hx
          rcases List.mem_cons.1 (hp.mem_iff.1 hx) with hx | hx
          · rw [hx]; exact hgt
          · exact h2 x hx

/-- When the search loop of `contains` finds `element` in the tree, the loop of `add`
follows the same path to the node holding it and stays there: no amount of fuel lets it
finish. -/
theorem addLoop_none_of_found [LinearOrder α] (fuel : Nat) (t : Node α) (element : α)
    (h : containsLoop t element = true) : addLoop fuel t element = none := by
  induction fuel generalizing t with
  | zero =>
    cases t with
    | nullptr => simp [containsLoop] at h
    | node left value right => rfl
  | succ fuel ih =>
    cases t with
    | nullptr => simp [containsLoop] at h
    | node left value right =>
      by_cases h1 : value > element
      · simp only [containsLoop, h1, if_true] at h
        simp [addLoop, h1, ih left h]
      · by_cases h2 : value < element
        · simp only [containsLoop, h1, h2, if_true, if_false] at h
          simp [addLoop, h1, h2, ih right h]
        · have h3 : containsLoop (node left value right) element = true := by
            simp [containsLoop, h1, h2]
          simp only [addLoop, h1, h2, if_false]
          exact ih _ h3

/-- One `add` of an element that is not stored, on a set whose `treeSize` is the number
of its nodes: the call returns, the element joins the stored values, both cached fields
are right again and search-tree order is kept. -/
theorem add_spec [LinearOrder α] (fuel : Nat) (s : AVLSet α) (element : α)
    (hsize : s.treeSize = (in_ s.head).length) (hne : element ∉ in_ s.head)
    (hf : s.treeSize ≤ fuel) :
    ∃ s1, add fuel s element = some s1 ∧ (in_ s1.head).Perm (element :: in_ s.head) ∧
      s1.treeSize = (in_ s1.head).length ∧ s1.treeHeight = calculateHeight s1.head ∧
      (isBST s.head = true → isBST s1.head = true) := by
  by_cases h0 : s.treeSize = 0
  · have hnil : s.head = nullptr := in_eq_nil _ (List.length_eq_zero.1 (by omega))
    refine ⟨_, by simp only [add, h0, if_true]; rfl, ?_, ?_, rfl, ?_⟩
    · simp [hnil, in_]
    · simp [in_]
    · intro _
      simp [isBST, allValues]
  · obtain ⟨t1, ht1, hp, hb⟩ := addLoop_spec s.head element fuel hne (by omega)
    cases hs : s.head with
    | nullptr =>
      rw [hs] at hsize
      simp [in_] at hsize
      omega
    | node left value right =>
      rw [hs] at ht1 hp hb
      refine ⟨{ head := t1, treeHeight := calculateHeight t1, treeSize := s.treeSize + 1 },
        ?_, hp, ?_, rfl, hb⟩
      · simp [add, h0, hs, ht1]
      · rw [hs] at hsize
        simp only [hp.length_eq, List.length_cons, hsize]

/-- A sequence of `add` calls of pairwise-distinct elements, none of them stored yet. -/
theorem addAll_spec [LinearOrder α] (fuel : Nat) (elements : List α) (s : AVLSet α)
    (hsize : s.treeSize = (in_ s.head).length) (hd : elements.Nodup)
    (hne : ∀ x ∈ elements, x ∉ in_ s.head) (hf : s.treeSize + elements.length ≤ fuel)
    (hh : s.treeHeight = calculateHeight s.head) :
    ∃ s1, addAll fuel s elements = some s1 ∧ (in_ s1.head).Perm (elements ++ in_ s.head) ∧
      s1.treeSize = (in_ s1.head).length ∧ s1.treeHeight = calculateHeight s1.head ∧
      (isBST s.head = true → isBST s1.head = true) := by
  induction elements generalizing s with
  | nil => exact ⟨s, rfl, by simp, hsize, hh, id⟩
  | cons element rest ih =>
    simp only [List.length_cons] at hf
    obtain ⟨hd1, hd2⟩ := List.nodup_cons.1 hd
    obtain ⟨s1, hs1, hp1, hsz1, hh1, hb1⟩ :=
      add_spec fuel s element hsize (hne element (List.mem_cons_self _ _)) (by omega)
    have hne1 : ∀ x ∈ rest, x ∉ in_ s1.head := by
      intro x hx hmem
      rcases List.mem_cons.1 (hp1.mem_iff.1 hmem) with h | h
      · exact hd1 (h ▸ hx)
      · exact hne x (List.mem_cons_of_mem _ hx) h
    have hlen : s1.treeSize = s.treeSize + 1 := by
      rw [hsz1, hp1.length_eq, List.length_cons, hsize]
    obtain ⟨s2, hs2, hp2, hsz2, hh2, hb2⟩ := ih s1 hsz1 hd2 hne1 (by omega) hh1
    refine ⟨s2, ?_, ?_, hsz2, hh2, fun h => hb2 (hb1 h)⟩
    · simp [addAll, hs1, hs2]
    · have h3 : (rest ++ in_ s1.head).Perm (rest ++ element :: in_ s.head) :=
        hp1.append_left rest
      have h4 : (rest ++ element :: in_ s.head).Perm (element :: (rest ++ in_ s.head)) :=
        List.perm_middle
      simpa using hp2.trans (h3.trans h4)

end AVLSet

/-! ## AVLSet: the claims -/

namespace AVLSet

open Node

variable {α : Type}

/-- C2, evaluated on the code.  `add(1)` on the empty set returns the set with the single
node 1, size 1 and height 0.  A second `add(1)` on that set does not return, whatever the
bound on its loop: at the node holding 1 neither `current->value > element` nor
`current->value < element` holds, so `current` is never moved and never becomes
`nullptr`. -/
theorem add_stored_value_never_returns :
    add 0 (new true) (1 : Nat) =
      some { head := node nullptr 1 nullptr, treeHeight := 0, treeSize := 1 } ∧
    ∀ fuel : Nat,
      add fuel { head := node nullptr 1 nullptr, treeHeight := 0, treeSize := 1 } (1 : Nat) =
        none := by
  refine ⟨by decide, fun fuel => ?_⟩
  have h := addLoop_none_of_found fuel (node nullptr 1 nullptr) (1 : Nat) (by decide)
  simp [add, h]

/-- C3, evaluated on the code.  `contains` faults on the empty set (in `difference(head)`,
which reads `head->left` with `head == nullptr`) and on a set holding a single element (in
`head->left->right->value`, with `head->left == nullptr`), whatever element is asked
for. -/
theorem contains_faults_on_small_sets (x : Nat) :
    contains (new true : AVLSet Nat) x = none ∧
    (add 0 (new true) (1 : Nat)).bind (fun s => contains s x) = none := by
  constructor <;> rfl

/-- C4, evaluated on the code.  On a set constructed with balancing enabled, `add(1)`,
..., `add(5)` give `height() = 4`, and already after `add(1)`, `add(2)`, `add(3)` the root
has an empty left subtree and a right subtree of height 1: `add` never calls `balance`
and the constructor does not read its parameter. -/
theorem height_after_ascending_adds :
    (addAll 5 (new true) [1, 2, 3, 4, 5]).map height = some 4 ∧
    (addAll 5 (new true) [1, 2, 3]).map (fun s => isBalanced s.head) = some false ∧
    (addAll 5 (new true) [1, 2, 3]).map (fun s => s.head) =
      some (node nullptr 1 (node nullptr 2 (node nullptr 3 nullptr))) := by
  decide

/-- C6.  For every sequence of pairwise-distinct elements, in any order, and whatever the
balancing flag, the `add` calls all return (one unit of fuel per element is enough for
every descent), the resulting tree is in binary-search-tree order at every node, and
`inorder` visits exactly the inserted elements, in strictly ascending order. -/
theorem inorder_strictly_ascending [LinearOrder α] (shouldBalance : Bool)
    (elements : List α) (fuel : Nat) (hd : elements.Nodup) (hf : elements.length ≤ fuel) :
    ∃ s, addAll fuel (new shouldBalance) elements = some s ∧ isBST s.head = true ∧
      (inorder s).Pairwise (fun a b => a < b) ∧ (inorder s).Perm elements := by
  obtain ⟨s, hs, hp, _, _, hb⟩ := addAll_spec fuel elements (new shouldBalance) rfl hd
    (by simp [new, in_]) (by simpa [new] using hf) rfl
  have hbst : isBST s.head = true := hb rfl
  refine ⟨s, hs, hbst, isBST_pairwise _ hbst, ?_⟩
  simpa [inorder, new, in_] using hp

/-- The order claim at the insertion sequence 3, 1, 2. -/
theorem inorder_strictly_ascending_witness :
    [3, 1, 2].Nodup ∧ [3, 1, 2].length ≤ 3 ∧
    ∃ s, addAll 3 (new true) [3, 1, 2] = some s ∧ isBST s.head = true ∧
      (inorder s).Pairwise (fun a b => a < b) ∧ (inorder s).Perm [3, 1, 2] :=
  ⟨by decide, by decide, inorder_strictly_ascending true [3, 1, 2] 3 (by decide) (by decide)⟩

end AVLSet

/-! ## Lemmas on `add`, the copies and the moves of a HashSet -/

namespace HashSet

variable {α : Type}

theorem cellAt_append_replicate (table : List (List α)) (n j : Nat) :
    cellAt (table ++ List.replicate n []) j = cellAt table j := by
  unfold cellAt
  simp only [List.getD_eq_getElem?_getD, List.getElem?_append, List.getElem?_replicate]
  by_cases h : j < table.length
  · simp [h]
  · rw [List.getElem?_eq_none (by omega)]
    by_cases h2 : j - table.length < n <;> simp [h, h2]

theorem copyBuckets_eq (s : HashSet α) (hl : s.hashTable.length = s.hashCapacity) :
    copyBuckets s = s.hashTable := by
  unfold copyBuckets
  rw [copyTable_take _ _ _ (by omega) (by omega), ← hl, List.take_length]
  simp

theorem add_hashFunction [DecidableEq α] (s : HashSet α) (element : α) :
    (add s element).hashFunction = s.hashFunction := by
  unfold add
  split_ifs <;> rfl

theorem add_hashSize_le [DecidableEq α] (s : HashSet α) (element : α) :
    (add s element).hashSize ≤ s.hashSize + 1 := by
  unfold add
  split_ifs <;> simp

theorem add_hashCapacity_of_not_full [DecidableEq α] (s : HashSet α) (element : α)
    (h : ¬ 5 * s.hashSize > 4 * s.hashCapacity) :
    (add s element).hashCapacity = s.hashCapacity := by
  unfold add
  split_ifs <;> rfl

theorem findInChain_appendAt_self [DecidableEq α] (table : List (List α)) (i : Nat)
    (element : α) (hi : i < table.length) :
    findInChain element (cellAt (appendAt table i element) i) = true := by
  rw [findInChain_iff, cellAt_appendAt]
  simp [hi]

theorem mem_cellAt_appendAt (table : List (List α)) (i j : Nat) (value x : α)
    (h : x ∈ cellAt (appendAt table i value) j) : x = value ∨ x ∈ cellAt table j := by
  rw [cellAt_appendAt] at h
  split_ifs at h with h1
  · rcases List.mem_append.1 h with h2 | h2
    · right; rw [h1.1]; exact h2
    · left; simpa using h2
  · exact Or.inr h

theorem mem_cellAt_appendAt_of_mem (table : List (List α)) (i j : Nat) (value x : α)
    (h : x ∈ cellAt table j) : x ∈ cellAt (appendAt table i value) j := by
  rw [cellAt_appendAt]
  split_ifs with h1
  · rw [h1.1] at h
    exact List.mem_append_left _ h
  · exact h

/-- Right after `add(element)` the element is found, on every state whose array has one
cell per unit of a positive capacity. -/
theorem contains_add_self [DecidableEq α] (s : HashSet α) (element : α)
    (hc : 0 < s.hashCapacity) (hl : s.hashTable.length = s.hashCapacity) :
    contains (add s element) element = true := by
  by_cases h1 : contains s element = false
  · by_cases h2 : 5 * s.hashSize > 4 * s.hashCapacity
    · have hadd : add s element =
          { hashFunction := s.hashFunction, hashSize := s.hashSize + 1,
            hashCapacity := s.hashCapacity * 2 + 1,
            hashTable := appendAt
              (copyTable s.hashTable s.hashCapacity
                (List.replicate (s.hashCapacity * 2 + 1) []))
              (s.hashFunction element % (s.hashCapacity * 2 + 1)) element } := by
        simp only [add, h1, h2, if_true]
      rw [hadd]
      simp only [contains]
      apply findInChain_appendAt_self
      rw [copyTable_take _ _ _ (by omega) (by omega)]
      have h3 : s.hashFunction element % (s.hashCapacity * 2 + 1) < s.hashCapacity * 2 + 1 :=
        Nat.mod_lt _ (by omega)
      simp
      omega
    · have hadd : add s element =
          { hashFunction := s.hashFunction, hashSize := s.hashSize + 1,
            hashCapacity := s.hashCapacity,
            hashTable := appendAt s.hashTable (s.hashFunction element % s.hashCapacity)
              element } := by
        simp only [add, h1, h2, if_true, if_false]
      rw [hadd]
      simp only [contains]
      apply findInChain_appendAt_self
      have h3 : s.hashFunction element % s.hashCapacity < s.hashCapacity := Nat.mod_lt _ hc
      omega
  · have h2 : contains s element = true := by simpa using h1
    have hadd : add s element = s := by simp [add, h2]
    rw [hadd]
    exact h2

/-- An `add` that does not resize keeps every element found. -/
theorem contains_add_of_contains [DecidableEq α] (s : HashSet α) (element x : α)
    (hfull : ¬ 5 * s.hashSize > 4 * s.hashCapacity) (hx : contains s x = true) :
    contains (add s element) x = true := by
  by_cases h1 : contains s element = false
  · have hadd : add s element =
        { hashFunction := s.hashFunction, hashSize := s.hashSize + 1,
          hashCapacity := s.hashCapacity,
          hashTable := appendAt s.hashTable (s.hashFunction element % s.hashCapacity)
            element } := by
      simp only [add, h1, hfull, if_true, if_false]
    rw [hadd]
    simp only [contains] at hx ⊢
    rw [findInChain_iff] at hx ⊢
    exact mem_cellAt_appendAt_of_mem _ _ _ _ _ hx
  · have h2 : contains s element = true := by simpa using h1
    have hadd : add s element = s := by simp [add, h2]
    rw [hadd]
    exact hx

/-- Every value stored in a chain after `add(element)` is `element` or was stored in a
chain before. -/
theorem mem_cellAt_add [DecidableEq α] (s : HashSet α) (element x : α) (j : Nat)
    (hl : s.hashTable.length = s.hashCapacity)
    (h : x ∈ cellAt (add s element).hashTable j) :
    x = element ∨ ∃ i, x ∈ cellAt s.hashTable i := by
  unfold add at h
  split_ifs at h with h1 h2
  · simp only at h
    rw [copyTable_take _ _ _ (by omega) (by omega), ← hl, List.take_length] at h
    rcases mem_cellAt_appendAt _ _ _ _ _ h with h3 | h3
    · exact Or.inl h3
    · rw [cellAt_append_replicate] at h3
      exact Or.inr ⟨j, h3⟩
  · rcases mem_cellAt_appendAt _ _ _ _ _ h with h3 | h3
    · exact Or.inl h3
    · exact Or.inr ⟨j, h3⟩
  · exact Or.inr ⟨j, h⟩

theorem mem_cellAt_addAll [DecidableEq α] (elements : List α) (s : HashSet α) (x : α) (j : Nat)
    (hc : 0 < s.hashCapacity) (hl : s.hashTable.length = s.hashCapacity)
    (hs : (s.hashTable.map List.length).sum = s.hashSize)
    (h : x ∈ cellAt (addAll s elements).hashTable j) :
    x ∈ elements ∨ ∃ i, x ∈ cellAt s.hashTable i := by
  induction elements generalizing s j with
  | nil => exact Or.inr ⟨j, h⟩
  | cons element rest ih =>
    obtain ⟨k1, k2, k3⟩ := add_keeps_shape s element hc hl hs
    rcases ih (add s element) j k1 k2 k3 h with h1 | ⟨i, h1⟩
    · exact Or.inl (List.mem_cons_of_mem _ h1)
    · rcases mem_cellAt_add s element x i hl h1 with h2 | h2
      · exact Or.inl (h2 ▸ List.mem_cons_self _ _)
      · exact Or.inr h2

theorem cellAt_new (hashFunction : α → Nat) (i : Nat) :
    cellAt (new hashFunction).hashTable i = [] := by
  simp only [new, cellAt, List.getD_eq_getElem?_getD, List.getElem?_replicate]
  split_ifs <;> rfl

/-- In every state reached by construction, `add`, copies and moves the capacity is
positive and the array has one cell per unit of capacity. -/
theorem reachable_shape [DecidableEq α] (s : HashSet α) (h : ReachableBy add s) :
    0 < s.hashCapacity ∧ s.hashTable.length = s.hashCapacity ∧
      (s.hashTable.map List.length).sum = s.hashSize := by
  induction h with
  | construct hashFunction => exact new_shape hashFunction
  | add s element _ ih => exact add_keeps_shape s element ih.1 ih.2.1 ih.2.2
  | copyConstruct s _ ih =>
    refine ⟨ih.1, ?_, ?_⟩
    · simp only [copyConstruct, copyBuckets_eq s ih.2.1]; exact ih.2.1
    · simp only [copyConstruct, copyBuckets_eq s ih.2.1]; exact ih.2.2
  | copyAssign self s _ _ _ ih =>
    refine ⟨ih.1, ?_, ?_⟩
    · simp only [copyAssign, copyBuckets_eq s ih.2.1]; exact ih.2.1
    · simp only [copyAssign, copyBuckets_eq s ih.2.1]; exact ih.2.2
  | moveConstructNew s _ ih => exact ih
  | moveConstructSource s _ _ => simp [moveConstruct, DEFAULT_CAPACITY]
  | moveAssignTarget self s _ _ _ ih => exact ih
  | moveAssignSource self s _ _ ih _ => exact ih

theorem reachable_addAll [DecidableEq α] (elements : List α) (s : HashSet α)
    (h : ReachableBy add s) : ReachableBy add (addAll s elements) := by
  induction elements generalizing s with
  | nil => exact h
  | cons element rest ih => exact ih (add s element) (ReachableBy.add s element h)

end HashSet

/-! ## HashSet: copies, capacity and queries, the claims -/

namespace HashSet

variable {α : Type}

/-- C11, evaluated on the code.  With the identity as hash function, after `add(1)` the
set finds 1, and the set copy-constructed from it does not: the copy constructor installs
`HashSet__undefinedHashFunction`, which sends every element to cell 0, while the copied
node is in cell 1. -/
theorem copy_does_not_find_element :
    contains (add (new id) 1) 1 = true ∧
    contains (copyConstruct (add (new id) 1)) 1 = false ∧
    isElementAtIndex (copyConstruct (add (new id) 1)) 1 1 = true := by
  decide

/-- C14.  In every state reached from construction by `add`, copy and move operations the
capacity is positive, so `hashFunction(element) % hashCapacity` never divides by zero.
The same holds when `hashCapacity * 2 + 1` and `hashSize + 1` are computed modulo `2^32`:
the new capacity is then the remainder of an odd number by an even one. -/
theorem capacity_never_zero [DecidableEq α] :
    (∀ s : HashSet α, ReachableBy add s → 0 < getCapacity s) ∧
    (∀ s : HashSet α, ReachableBy add32 s → 0 < getCapacity s) ∧
    (∀ capacity : Nat, 0 < (capacity * 2 + 1) % UINT_RANGE) := by
  refine ⟨fun s h => (reachable_shape s h).1, ?_, ?_⟩
  · intro s h
    unfold getCapacity
    induction h with
    | construct hashFunction => simp [new, DEFAULT_CAPACITY]
    | add s element _ ih =>
      unfold add32 UINT_RANGE
      split_ifs
      · simp only
        omega
      · exact ih
      · exact ih
    | copyConstruct s _ ih => exact ih
    | copyAssign self s _ _ _ ih => exact ih
    | moveConstructNew s _ ih => exact ih
    | moveConstructSource s _ _ => simp [moveConstruct, DEFAULT_CAPACITY]
    | moveAssignTarget self s _ _ _ ih => exact ih
    | moveAssignSource self s _ _ ih _ => exact ih
  · intro capacity
    unfold UINT_RANGE
    omega

/-- The capacity claim at the source of a move construction from a set holding 1, and at
a set grown by `add` in 32-bit arithmetic. -/
theorem capacity_never_zero_witness :
    ReachableBy add (moveConstruct (add (new id) 1)).2 ∧
    0 < getCapacity (moveConstruct (add (new id) 1)).2 ∧
    ReachableBy add32 (add32 (new id) 1) ∧
    0 < getCapacity (add32 (new id) 1) :=
  ⟨ReachableBy.moveConstructSource _ (ReachableBy.add _ _ (ReachableBy.construct id)),
    capacity_never_zero.1 _
      (ReachableBy.moveConstructSource _ (ReachableBy.add _ _ (ReachableBy.construct id))),
    ReachableBy.add _ _ (ReachableBy.construct id),
    capacity_never_zero.2.1 _ (ReachableBy.add _ _ (ReachableBy.construct id))⟩

/-- C15.  In every reachable state and for every hash function, `contains(e)` is true
right after `add(e)`, whether the call did nothing, linked a node or resized the table
first.  After `add("cat")`, `add("dog")`, `add("bird")` on a fresh set, with any hash
function `h`, `contains("cat")` is true and `elementsAtIndex(h("dog") mod capacity)` is at
least 1. -/
theorem contains_true_after_add :
    (∀ (α : Type) [DecidableEq α] (s : HashSet α) (element : α),
      ReachableBy add s → contains (add s element) element = true) ∧
    (∀ h : String → Nat,
      contains (addAll (new h) ["cat", "dog", "bird"]) "cat" = true ∧
      elementsAtIndex (addAll (new h) ["cat", "dog", "bird"])
        (h "dog" % getCapacity (addAll (new h) ["cat", "dog", "bird"])) ≥ 1) := by
  constructor
  · intro α _ s element hr
    obtain ⟨hc, hl, _⟩ := reachable_shape s hr
    exact contains_add_self s element hc hl
  · intro h
    obtain ⟨c0, l0, t0⟩ := new_shape h
    have z0 : (new h).hashSize = 0 := rfl
    have k0 : (new h).hashCapacity = 10 := rfl
    obtain ⟨c1, l1, t1⟩ := add_keeps_shape (new h) "cat" c0 l0 t0
    have z1 := add_hashSize_le (new h) "cat"
    have k1 := add_hashCapacity_of_not_full (new h) "cat" (by omega)
    obtain ⟨c2, l2, t2⟩ := add_keeps_shape _ "dog" c1 l1 t1
    have z2 := add_hashSize_le (add (new h) "cat") "dog"
    have k2 := add_hashCapacity_of_not_full (add (new h) "cat") "dog" (by omega)
    have k3 := add_hashCapacity_of_not_full (add (add (new h) "cat") "dog") "bird" (by omega)
    have e : addAll (new h) ["cat", "dog", "bird"] =
        add (add (add (new h) "cat") "dog") "bird" := rfl
    have f1 : contains (add (new h) "cat") "cat" = true := contains_add_self _ _ c0 l0
    have f2 : contains (add (add (new h) "cat") "dog") "cat" = true :=
      contains_add_of_contains _ _ _ (by omega) f1
    have f3 : contains (add (add (add (new h) "cat") "dog") "bird") "cat" = true :=
      contains_add_of_contains _ _ _ (by omega) f2
    have g2 : contains (add (add (new h) "cat") "dog") "dog" = true :=
      contains_add_self _ _ c1 l1
    have g3 : contains (add (add (add (new h) "cat") "dog") "bird") "dog" = true :=
      contains_add_of_contains _ _ _ (by omega) g2
    rw [e]
    refine ⟨f3, ?_⟩
    have hf : (add (add (add (new h) "cat") "dog") "bird").hashFunction = h := by
      rw [add_hashFunction, add_hashFunction, add_hashFunction]; rfl
    simp only [contains, hf, findInChain_iff] at g3
    have hpos : 0 < (add (add (add (new h) "cat") "dog") "bird").hashCapacity := by
      rw [k3, k2, k1, k0]; omega
    have hlt := Nat.mod_lt (h "dog") hpos
    simp only [elementsAtIndex, getCapacity, ge_iff_le, countChain_eq]
    rw [if_neg (by omega)]
    have := List.length_pos_of_mem g3
    omega

/-- The claim at the resizing call `add(19)` after `add(10)`, ..., `add(18)`. -/
theorem contains_true_after_add_witness :
    ReachableBy add (addAll (new id) [10, 11, 12, 13, 14, 15, 16, 17, 18]) ∧
    contains (add (addAll (new id) [10, 11, 12, 13, 14, 15, 16, 17, 18]) 19) 19 = true :=
  ⟨reachable_addAll _ _ (ReachableBy.construct id),
    contains_true_after_add.1 Nat _ 19 (reachable_addAll _ _ (ReachableBy.construct id))⟩

/-- C16.  For every hash function, every sequence of `add` calls and every element that
does not occur in the sequence, `contains` returns false and `isElementAtIndex` returns
false at every index. -/
theorem contains_false_of_not_added [DecidableEq α] (hashFunction : α → Nat)
    (elements : List α) (x : α) (hx : x ∉ elements) :
    contains (addAll (new hashFunction) elements) x = false ∧
    ∀ index : Nat, isElementAtIndex (addAll (new hashFunction) elements) x index = false := by
  obtain ⟨c0, l0, t0⟩ := new_shape hashFunction
  have key : ∀ j, x ∉ cellAt (addAll (new hashFunction) elements).hashTable j := by
    intro j hj
    rcases mem_cellAt_addAll elements _ x j c0 l0 t0 hj with h1 | ⟨i, h1⟩
    · exact hx h1
    · rw [cellAt_new] at h1
      simp at h1
  constructor
  · rw [← Bool.not_eq_true, contains, findInChain_iff]
    exact key _
  · intro index
    unfold isElementAtIndex
    split_ifs
    · rfl
    · rw [← Bool.not_eq_true, findInChain_iff]
      exact key _

/-- The claim for the element 4 after `add(1)`, `add(2)`, `add(3)`. -/
theorem contains_false_of_not_added_witness :
    4 ∉ [1, 2, 3] ∧ contains (addAll (new id) [1, 2, 3]) 4 = false ∧
    ∀ index : Nat, isElementAtIndex (addAll (new id) [1, 2, 3]) 4 index = false :=
  ⟨by decide, contains_false_of_not_added id [1, 2, 3] 4 (by decide)⟩

/-- C17.  For every state and every index, `elementsAtIndex` returns 0 when the index is
not below the capacity, and the number of nodes of the chain of that cell when it is; in
a state whose array has one cell per unit of capacity that cell is inside the array. -/
theorem elementsAtIndex_spec (s : HashSet α) (index : Nat) :
    (s.hashCapacity ≤ index → elementsAtIndex s index = 0) ∧
    (index < s.hashCapacity → elementsAtIndex s index = (cellAt s.hashTable index).length) ∧
    (index < s.hashCapacity → s.hashTable.length = s.hashCapacity →
      ∃ chain, s.hashTable[index]? = some chain ∧ elementsAtIndex s index = chain.length) := by
  refine ⟨?_, ?_, ?_⟩
  · intro h
    simp [elementsAtIndex, h]
  · intro h
    have h2 : ¬ index ≥ s.hashCapacity := by omega
    simp [elementsAtIndex, h2, countChain_eq]
  · intro h hl
    have h2 : ¬ index ≥ s.hashCapacity := by omega
    have h3 : index < s.hashTable.length := by omega
    refine ⟨s.hashTable[index], List.getElem?_eq_getElem h3, ?_⟩
    simp [elementsAtIndex, h2, countChain_eq, cellAt, List.getElem?_eq_getElem h3]

/-- The claim on the set holding 1 and 11 under the identity hash, at the indices 1
and 10. -/
theorem elementsAtIndex_spec_witness :
    (10 ≤ 10 ∧ elementsAtIndex (addAll (new id) [1, 11]) 10 = 0) ∧
    (1 < 10 ∧ elementsAtIndex (addAll (new id) [1, 11]) 1 =
      (cellAt (addAll (new id) [1, 11]).hashTable 1).length) ∧
    elementsAtIndex (addAll (new id) [1, 11]) 1 = 2 :=
  ⟨⟨by decide, (elementsAtIndex_spec (addAll (new id) [1, 11]) 10).1 (by decide)⟩,
    ⟨by decide, (elementsAtIndex_spec (addAll (new id) [1, 11]) 1).2.1 (by decide)⟩,
    by decide⟩

/-- C18.  For every state, element and index, `isElementAtIndex` returns true exactly
when the index is below the capacity and some node of the chain of that cell holds a
value equal to the element; it returns false at every index not below the capacity. -/
theorem isElementAtIndex_spec [DecidableEq α] (s : HashSet α) (element : α) (index : Nat) :
    (isElementAtIndex s element index = true ↔
      index < s.hashCapacity ∧ element ∈ cellAt s.hashTable index) ∧
    (s.hashCapacity ≤ index → isElementAtIndex s element index = false) := by
  constructor
  · unfold isElementAtIndex
    split_ifs with h
    · simp
      omega
    · rw [findInChain_iff]
      constructor
      · intro h2
        exact ⟨by omega, h2⟩
      · intro h2
        exact h2.2
  · intro h
    simp [isElementAtIndex, h]

/-- The claim on the set holding 1 and 11 under the identity hash: 11 is in the chain of
cell 1 and is reported there, and it is not reported at index 10. -/
theorem isElementAtIndex_spec_witness :
    isElementAtIndex (addAll (new id) [1, 11]) 11 1 = true ∧
    (10 ≤ 10 ∧ isElementAtIndex (addAll (new id) [1, 11]) 11 10 = false) :=
  ⟨(isElementAtIndex_spec (addAll (new id) [1, 11]) 11 1).1.2 ⟨by decide, by decide⟩,
    by decide, (isElementAtIndex_spec (addAll (new id) [1, 11]) 11 10).2 (by decide)⟩

end HashSet

/-! ## Lemmas on clones, traversals and chains -/

namespace AVLSet

open Node

variable {α : Type}

theorem clone_eq (t : Node α) : clone t = t := by
  induction t with
  | nullptr => rfl
  | node left value right ihl ihr => simp [clone, ihl, ihr]

theorem pre_perm_in (t : Node α) : (pre t).Perm (in_ t) := by
  induction t with
  | nullptr => exact List.Perm.refl _
  | node left value right ihl ihr =>
    have h1 : (value :: (pre left ++ pre right)).Perm (value :: (in_ left ++ in_ right)) :=
      (ihl.append ihr).cons value
    exact h1.trans List.perm_middle.symm

theorem post_perm_in (t : Node α) : (post t).Perm (in_ t) := by
  induction t with
  | nullptr => exact List.Perm.refl _
  | node left value right ihl ihr =>
    have h1 : (post left ++ post right ++ [value]).Perm (in_ left ++ (in_ right ++ [value])) := by
      rw [List.append_assoc]
      exact ihl.append (ihr.append_right [value])
    have h2 : (in_ right ++ [value]).Perm (value :: in_ right) :=
      List.perm_append_singleton value (in_ right)
    exact h1.trans (h2.append_left (in_ left))

theorem preVisit_eq {σ : Type} (visit : σ → α → σ) (t : Node α) (st : σ) :
    preVisit visit t st = (pre t).foldl visit st := by
  induction t generalizing st with
  | nullptr => rfl
  | node left value right ihl ihr => simp [preVisit, pre, ihl, ihr, List.foldl_append]

theorem inVisit_eq {σ : Type} (visit : σ → α → σ) (t : Node α) (st : σ) :
    inVisit visit t st = (in_ t).foldl visit st := by
  induction t generalizing st with
  | nullptr => rfl
  | node left value right ihl ihr => simp [inVisit, in_, ihl, ihr, List.foldl_append]

theorem postVisit_eq {σ : Type} (visit : σ → α → σ) (t : Node α) (st : σ) :
    postVisit visit t st = (post t).foldl visit st := by
  induction t generalizing st with
  | nullptr => rfl
  | node left value right ihl ihr => simp [postVisit, post, ihl, ihr, List.foldl_append]

theorem calculateHeight_rightChain (value : α) (rest : List α) :
    calculateHeight (rightChain (value :: rest)) = rest.length := by
  induction rest generalizing value with
  | nil => simp [rightChain, calculateHeight]
  | cons next rest ih =>
    have h : calculateHeight (rightChain (value :: next :: rest)) =
        max (-1) (calculateHeight (rightChain (next :: rest))) + 1 := rfl
    rw [h, ih next, List.length_cons]
    push_cast
    omega

theorem in_rightChain (values : List α) : in_ (rightChain values) = values := by
  induction values with
  | nil => rfl
  | cons value rest ih => simp [rightChain, in_, ih]

/-- The descent for an element greater than every value of a right chain runs down the
chain and links the new node at its end. -/
theorem addLoop_rightChain [LinearOrder α] (values : List α) (element : α) (fuel : Nat)
    (hlt : ∀ x ∈ values, x < element) (hf : values.length ≤ fuel) :
    addLoop fuel (rightChain values) element = some (rightChain (values ++ [element])) := by
  induction values generalizing fuel with
  | nil => cases fuel <;> rfl
  | cons value rest ih =>
    cases fuel with
    | zero => simp at hf
    | succ fuel =>
      have h1 : value < element := hlt value (List.mem_cons_self _ _)
      have h2 : ¬ value > element := not_lt.2 (le_of_lt h1)
      have h3 := ih fuel (fun x hx => hlt x (List.mem_cons_of_mem _ hx))
        (by simpa using hf)
      simp [rightChain, addLoop, h1, h2, h3]

theorem addAll_rightChain [LinearOrder α] (fuel : Nat) (elements front : List α)
    (s : AVLSet α) (hhead : s.head = rightChain front) (hsize : s.treeSize = front.length)
    (hasc : (front ++ elements).Pairwise (fun a b => a < b))
    (hf : front.length + elements.length ≤ fuel) :
    ∃ s1, addAll fuel s elements = some s1 ∧ s1.head = rightChain (front ++ elements) ∧
      s1.treeSize = front.length + elements.length ∧
      (elements ≠ [] → s1.treeHeight = calculateHeight s1.head) := by
  induction elements generalizing s front with
  | nil => exact ⟨s, rfl, by simpa using hhead, by simpa using hsize, fun h => absurd rfl h⟩
  | cons element rest ih =>
    simp only [List.length_cons] at hf
    have hlt : ∀ x ∈ front, x < element := by
      intro x hx
      exact (List.pairwise_append.1 hasc).2.2 x hx element (List.mem_cons_self _ _)
    have hloop := addLoop_rightChain front element fuel hlt (by omega)
    have hadd : add fuel s element =
        some { head := rightChain (front ++ [element]),
               treeHeight := calculateHeight (rightChain (front ++ [element])),
               treeSize := s.treeSize + 1 } := by
      cases front with
      | nil =>
        have h0 : s.treeSize = 0 := by simpa using hsize
        simp [add, h0, rightChain]
      | cons first more =>
        have h0 : ¬ s.treeSize = 0 := by simp [hsize]
        simp only [add, h0, if_false, hhead, rightChain]
        simp only [rightChain] at hloop
        simp [hloop]
    obtain ⟨s1, hs1, hh1, hz1, ht1⟩ := ih (front ++ [element])
      { head := rightChain (front ++ [element]),
        treeHeight := calculateHeight (rightChain (front ++ [element])),
        treeSize := s.treeSize + 1 } rfl
      (by simp [hsize]) (by simpa using hasc) (by simp; omega)
    refine ⟨s1, ?_, by simpa using hh1, ?_, ?_⟩
    · simp [addAll, hadd, hs1]
    · simp only [List.length_append, List.length_cons, List.length_nil] at hz1 ⊢
      omega
    · intro _
      cases rest with
      | nil =>
        simp only [addAll, Option.some.injEq] at hs1
        rw [← hs1]
      | cons next more => exact ht1 (by simp)

end AVLSet

/-! ## AVLSet: copies, chains and traversals, the claims -/

namespace AVLSet

open Node

variable {α : Type}

/-- C19.  On a set constructed with balancing disabled, the `add` calls of `n >= 1`
strictly ascending elements all return and leave the degenerate right chain of the
elements, with `height() = n - 1`. -/
theorem ascending_adds_give_right_chain [LinearOrder α] (elements : List α) (fuel : Nat)
    (hasc : elements.Pairwise (fun a b => a < b)) (hne : elements ≠ [])
    (hf : elements.length ≤ fuel) :
    ∃ s, addAll fuel (new false) elements = some s ∧ s.head = rightChain elements ∧
      size s = elements.length ∧ height s = (elements.length : Int) - 1 := by
  obtain ⟨s, hs, hh, hz, ht⟩ := addAll_rightChain fuel elements [] (new false) rfl rfl
    (by simpa using hasc) (by simpa using hf)
  refine ⟨s, hs, by simpa using hh, by simpa [size] using hz, ?_⟩
  rw [height, ht hne, hh]
  cases elements with
  | nil => exact absurd rfl hne
  | cons value rest =>
    rw [List.nil_append, calculateHeight_rightChain, List.length_cons]
    push_cast
    omega

/-- The chain claim at 1, 2, 3, 4, 5: the height is 4. -/
theorem ascending_adds_give_right_chain_witness :
    [1, 2, 3, 4, 5].Pairwise (fun a b => a < b) ∧ [1, 2, 3, 4, 5] ≠ [] ∧
    [1, 2, 3, 4, 5].length ≤ 5 ∧
    (addAll 5 (new false) [1, 2, 3, 4, 5]).map height = some 4 ∧
    ∃ s, addAll 5 (new false) [1, 2, 3, 4, 5] = some s ∧
      s.head = rightChain [1, 2, 3, 4, 5] ∧ size s = [1, 2, 3, 4, 5].length ∧
      height s = ([1, 2, 3, 4, 5].length : Int) - 1 :=
  ⟨by decide, by decide, by decide, by decide,
    ascending_adds_give_right_chain [1, 2, 3, 4, 5] 5 (by decide) (by decide) (by decide)⟩

/-- C20.  For every set built by the `add` calls of pairwise-distinct elements, each of
`preorder`, `inorder` and `postorder` calls `visit` once per stored element: the sequence
of visited values is a permutation of the inserted elements, of length `size()`.  The
calls come in root-left-right, left-root-right and left-right-root order at every node.
A traversal leaves the set as it is: running it a second time makes the same calls once
more. -/
theorem traversals_visit_each_element_once [LinearOrder α] (shouldBalance : Bool)
    (elements : List α) (fuel : Nat) (hd : elements.Nodup) (hf : elements.length ≤ fuel) :
    ∃ s, addAll fuel (new shouldBalance) elements = some s ∧
      ((preorder s).Perm elements ∧ (inorder s).Perm elements ∧
        (postorder s).Perm elements) ∧
      ((preorder s).length = size s ∧ (inorder s).length = size s ∧
        (postorder s).length = size s) ∧
      (∀ (σ : Type) (visit : σ → α → σ) (st : σ),
        preVisit visit s.head st = (preorder s).foldl visit st ∧
        inVisit visit s.head st = (inorder s).foldl visit st ∧
        postVisit visit s.head st = (postorder s).foldl visit st ∧
        preVisit visit s.head (preVisit visit s.head st) =
          (preorder s ++ preorder s).foldl visit st ∧
        inVisit visit s.head (inVisit visit s.head st) =
          (inorder s ++ inorder s).foldl visit st ∧
        postVisit visit s.head (postVisit visit s.head st) =
          (postorder s ++ postorder s).foldl visit st) ∧
      (∀ (left right : Node α) (value : α),
        pre (node left value right) = value :: (pre left ++ pre right) ∧
        in_ (node left value right) = in_ left ++ value :: in_ right ∧
        post (node left value right) = post left ++ post right ++ [value]) := by
  obtain ⟨s, hs, hp, hz, _, _⟩ := addAll_spec fuel elements (new shouldBalance) rfl hd
    (by simp [new, in_]) (by simpa [new] using hf) rfl
  have hin : (in_ s.head).Perm elements := by simpa [new, in_] using hp
  have hpre : (pre s.head).Perm elements := (pre_perm_in s.head).trans hin
  have hpost : (post s.head).Perm elements := (post_perm_in s.head).trans hin
  refine ⟨s, hs, ⟨hpre, hin, hpost⟩, ⟨?_, ?_, ?_⟩, ?_, fun _ _ _ => ⟨rfl, rfl, rfl⟩⟩
  · rw [preorder, size, hz, (pre_perm_in s.head).length_eq]
  · rw [inorder, size, hz]
  · rw [postorder, size, hz, (post_perm_in s.head).length_eq]
  · intro σ visit st
    simp only [preorder, inorder, postorder, preVisit_eq, inVisit_eq, postVisit_eq,
      List.foldl_append, and_self]

/-- The traversal claim at the insertion sequence 2, 1, 3. -/
theorem traversals_visit_each_element_once_witness :
    [2, 1, 3].Nodup ∧ [2, 1, 3].length ≤ 3 ∧
    (addAll 3 (new true) [2, 1, 3]).map preorder = some [2, 1, 3] ∧
    (addAll 3 (new true) [2, 1, 3]).map inorder = some [1, 2, 3] ∧
    (addAll 3 (new true) [2, 1, 3]).map postorder = some [1, 3, 2] ∧
    ∃ s, addAll 3 (new true) [2, 1, 3] = some s ∧ (preorder s).Perm [2, 1, 3] :=
  ⟨by decide, by decide, by decide, by decide, by decide,
    (traversals_visit_each_element_once true [2, 1, 3] 3 (by decide) (by decide)).imp
      (fun _ h => ⟨h.1, h.2.1.1⟩)⟩

end AVLSet

/-! ## Moves of both sets, the claim -/

/-- C13 as stated fails on the code.  Move assignment into a set holding 1 from a set
holding 2 leaves the source holding 1, for the tree (size 1, a root node) and for the
hash set (size 1, a node in cell 1): the members are swapped, not reset. -/
theorem moveAssign_source_not_empty :
    ¬ (AVLSet.size (AVLSet.moveAssign
        ({ head := .node .nullptr 1 .nullptr, treeHeight := 0, treeSize := 1 } : AVLSet Nat)
        { head := .node .nullptr 2 .nullptr, treeHeight := 0, treeSize := 1 }).2 = 0) ∧
    (AVLSet.moveAssign
        ({ head := .node .nullptr 1 .nullptr, treeHeight := 0, treeSize := 1 } : AVLSet Nat)
        { head := .node .nullptr 2 .nullptr, treeHeight := 0, treeSize := 1 }).2.head =
      .node .nullptr 1 .nullptr ∧
    ¬ (HashSet.size (HashSet.moveAssign (HashSet.add (HashSet.new id) 1)
        (HashSet.add (HashSet.new id) 2)).2 = 0) ∧
    HashSet.elementsAtIndex (HashSet.moveAssign (HashSet.add (HashSet.new id) 1)
        (HashSet.add (HashSet.new id) 2)).2 1 = 1 := by
  decide

/-- C13, amended.  After move construction from `s` the new set holds the former contents
of `s` and `s` is empty: for the tree an empty root, size 0 and height -1; for the hash
set size 0 and every bucket empty.  After move assignment from `s` the assigned set holds
the former contents of `s`, and `s` holds the former contents of the assigned set. -/
theorem move_transfers_contents :
    (∀ (α : Type) (s : AVLSet α),
      (AVLSet.moveConstruct s).1 = s ∧ (AVLSet.moveConstruct s).2.head = .nullptr ∧
      AVLSet.size (AVLSet.moveConstruct s).2 = 0 ∧
      AVLSet.height (AVLSet.moveConstruct s).2 = -1) ∧
    (∀ (α : Type) (target s : AVLSet α),
      (AVLSet.moveAssign target s).1 = s ∧ (AVLSet.moveAssign target s).2 = target) ∧
    (∀ (α : Type) (s : HashSet α),
      ((HashSet.moveConstruct s).1.hashTable = s.hashTable ∧
        (HashSet.moveConstruct s).1.hashCapacity = s.hashCapacity ∧
        (HashSet.moveConstruct s).1.hashSize = s.hashSize) ∧
      HashSet.size (HashSet.moveConstruct s).2 = 0 ∧
      ∀ index : Nat, HashSet.elementsAtIndex (HashSet.moveConstruct s).2 index = 0) ∧
    (∀ (α : Type) (target s : HashSet α),
      ((HashSet.moveAssign target s).1.hashTable = s.hashTable ∧
        (HashSet.moveAssign target s).1.hashCapacity = s.hashCapacity ∧
        (HashSet.moveAssign target s).1.hashSize = s.hashSize) ∧
      ((HashSet.moveAssign target s).2.hashTable = target.hashTable ∧
        (HashSet.moveAssign target s).2.hashCapacity = target.hashCapacity ∧
        (HashSet.moveAssign target s).2.hashSize = target.hashSize)) := by
  refine ⟨fun α s => ⟨rfl, rfl, rfl, rfl⟩, fun α target s => ⟨rfl, rfl⟩, ?_,
    fun α target s => ⟨⟨rfl, rfl, rfl⟩, ⟨rfl, rfl, rfl⟩⟩⟩
  intro α s
  refine ⟨⟨rfl, rfl, rfl⟩, rfl, ?_⟩
  intro index
  have h : HashSet.cellAt (HashSet.moveConstruct s).2.hashTable index = [] :=
    HashSet.cellAt_new s.hashFunction index
  unfold HashSet.elementsAtIndex
  split_ifs
  · rfl
  · rw [h]; rfl

/-! ## Lemmas on the heap -/

namespace AVLSet

open Node

variable {α : Type}

theorem RepresentsIn.mono {lo hi lo2 hi2 : Nat} {heap : List (HeapNode α)} {p : Option Nat}
    {t : Node α} (h : RepresentsIn lo hi heap p t) (hlo : lo2 ≤ lo) (hhi : hi ≤ hi2) :
    RepresentsIn lo2 hi2 heap p t := by
  induction h with
  | null => exact RepresentsIn.null
  | node a c l r h1 h2 h3 _ _ ihl ihr =>
    exact RepresentsIn.node a c l r (by omega) (by omega) h3 ihl ihr

/-- A tree read through addresses of a range stays the same when the objects at the
addresses of that range stay the same. -/
theorem RepresentsIn.frame {lo hi : Nat} {heap heap2 : List (HeapNode α)} {p : Option Nat}
    {t : Node α} (h : RepresentsIn lo hi heap p t)
    (hsame : ∀ a, lo ≤ a → a < hi → heap2[a]? = heap[a]?) :
    RepresentsIn lo hi heap2 p t := by
  induction h with
  | null => exact RepresentsIn.null
  | node a c l r h1 h2 h3 _ _ ihl ihr =>
    exact RepresentsIn.node a c l r h1 h2 (by rw [hsame a h1 h2]; exact h3) ihl ihr

theorem writeRight_spec (heap : List (HeapNode α)) (p : Nat) (q : Option Nat)
    (c : HeapNode α) (hc : heap[p]? = some c) :
    ∃ heap2, writeRight heap p q = some heap2 ∧ heap2.length = heap.length ∧
      heap2[p]? = some { value := c.value, right := q, left := c.left } ∧
      ∀ a, a ≠ p → heap2[a]? = heap[a]? := by
  have hp : p < heap.length := by
    by_contra hn
    rw [List.getElem?_eq_none (by omega)] at hc
    simp at hc
  refine ⟨heap.set p { value := c.value, right := q, left := c.left },
    by simp [writeRight, hc], by simp, ?_, ?_⟩
  · simp [List.getElem?_set, hp]
  · intro a ha
    have : ¬ p = a := fun h => ha h.symm
    simp [List.getElem?_set, this]

theorem writeLeft_spec (heap : List (HeapNode α)) (p : Nat) (q : Option Nat)
    (c : HeapNode α) (hc : heap[p]? = some c) :
    ∃ heap2, writeLeft heap p q = some heap2 ∧ heap2.length = heap.length ∧
      heap2[p]? = some { value := c.value, right := c.right, left := q } ∧
      ∀ a, a ≠ p → heap2[a]? = heap[a]? := by
  have hp : p < heap.length := by
    by_contra hn
    rw [List.getElem?_eq_none (by omega)] at hc
    simp at hc
  refine ⟨heap.set p { value := c.value, right := c.right, left := q },
    by simp [writeLeft, hc], by simp, ?_, ?_⟩
  · simp [List.getElem?_set, hp]
  · intro a ha
    have : ¬ p = a := fun h => ha h.symm
    simp [List.getElem?_set, this]

theorem getElem?_append_one (heap : List (HeapNode α)) (c : HeapNode α) (a : Nat)
    (ha : a < heap.length) : (heap ++ [c])[a]? = heap[a]? := by
  simp [List.getElem?_append, ha]

theorem getElem?_append_new (heap : List (HeapNode α)) (c : HeapNode α) :
    (heap ++ [c])[heap.length]? = some c := by
  simp [List.getElem?_append]

/-- `clone` on the heap returns, allocates only, and builds the same tree out of the
objects it allocates. -/
theorem cloneH_spec (t : Node α) (heap : List (HeapNode α)) (p : Option Nat) (fuel : Nat)
    (hrep : RepresentsIn 0 heap.length heap p t) (hf : (in_ t).length ≤ fuel) :
    ∃ heap2 p2, cloneH fuel heap p = some (heap2, p2) ∧ heap.length ≤ heap2.length ∧
      (∀ a, a < heap.length → heap2[a]? = heap[a]?) ∧
      RepresentsIn heap.length heap2.length heap2 p2 t := by
  induction t generalizing heap p fuel with
  | nullptr =>
    cases hrep
    exact ⟨heap, none, by cases fuel <;> rfl, le_refl _, fun _ _ => rfl, RepresentsIn.null⟩
  | node l v r ihl ihr =>
    cases hrep with
    | node a c _ _ h1 h2 h3 hl hr =>
      simp only [in_, List.length_append, List.length_cons] at hf
      cases fuel with
      | zero => omega
      | succ f =>
        have e1 : (heap ++ [(⟨c.value, none, none⟩ : HeapNode α)])[a]? = some c := by
          rw [getElem?_append_one _ _ _ h2]; exact h3
        have hr1 : RepresentsIn 0 (heap ++ [(⟨c.value, none, none⟩ : HeapNode α)]).length
            (heap ++ [(⟨c.value, none, none⟩ : HeapNode α)]) c.right r :=
          (hr.frame (fun b _ hb => getElem?_append_one _ _ _ hb)).mono (le_refl _) (by simp)
        obtain ⟨heap2, r2, hc2, hlen2, hsame2, hrep2⟩ := ihr _ c.right f hr1 (by omega)
        simp only [List.length_append, List.length_singleton] at hlen2 hsame2 hrep2
        have e2 : heap2[heap.length]? = some (⟨c.value, none, none⟩ : HeapNode α) := by
          rw [hsame2 _ (by omega)]; exact getElem?_append_new _ _
        obtain ⟨heap3, hw3, hlen3, hat3, hoth3⟩ := writeRight_spec heap2 heap.length r2 _ e2
        have below3 : ∀ b, b < heap.length → heap3[b]? = heap[b]? := by
          intro b hb
          rw [hoth3 b (by omega), hsame2 b (by omega), getElem?_append_one _ _ _ hb]
        have e3 : heap3[a]? = some c := by rw [below3 a h2]; exact h3
        have hl3 : RepresentsIn 0 heap3.length heap3 c.left l :=
          (hl.frame (fun b _ hb => below3 b hb)).mono (le_refl _) (by omega)
        obtain ⟨heap4, l4, hc4, hlen4, hsame4, hrep4⟩ := ihl _ c.left f hl3 (by omega)
        have e4 : heap4[heap.length]? =
            some (⟨c.value, r2, none⟩ : HeapNode α) := by
          rw [hsame4 _ (by omega)]; exact hat3
        obtain ⟨heap5, hw5, hlen5, hat5, hoth5⟩ := writeLeft_spec heap4 heap.length l4 _ e4
        refine ⟨heap5, some heap.length, ?_, by omega, ?_, ?_⟩
        · simp only [cloneH, h3, Option.some_bind, e1, hc2, hw3, e3, hc4, hw5]
        · intro b hb
          rw [hoth5 b (by omega), hsame4 b (by omega), below3 b hb]
        · have hl5 : RepresentsIn heap.length heap5.length heap5 l4 l :=
            (hrep4.frame (fun b hb1 _ => hoth5 b (by omega))).mono (by omega) (by omega)
          have hr5 : RepresentsIn heap.length heap5.length heap5 r2 r := by
            have k3 : RepresentsIn (heap.length + 1) heap2.length heap3 r2 r :=
              hrep2.frame (fun b hb1 _ => hoth3 b (by omega))
            have k4 : RepresentsIn (heap.length + 1) heap2.length heap4 r2 r :=
              k3.frame (fun b _ hb2 => hsame4 b (by omega))
            have k5 : RepresentsIn (heap.length + 1) heap2.length heap5 r2 r :=
              k4.frame (fun b hb1 _ => hoth5 b (by omega))
            exact k5.mono (by omega) (by omega)
          exact RepresentsIn.node heap.length ⟨c.value, r2, l4⟩ l r (le_refl _) (by omega)
            hat5 hl5 hr5

theorem writeRight_other (heap heap2 : List (HeapNode α)) (p : Nat) (q : Option Nat)
    (h : writeRight heap p q = some heap2) :
    heap2.length = heap.length ∧ ∀ a, a ≠ p → heap2[a]? = heap[a]? := by
  cases hc : heap[p]? with
  | none => simp [writeRight, hc] at h
  | some c =>
    obtain ⟨heap3, h3, hlen, _, hoth⟩ := writeRight_spec heap p q c hc
    rw [h3] at h
    cases h
    exact ⟨hlen, hoth⟩

theorem writeLeft_other (heap heap2 : List (HeapNode α)) (p : Nat) (q : Option Nat)
    (h : writeLeft heap p q = some heap2) :
    heap2.length = heap.length ∧ ∀ a, a ≠ p → heap2[a]? = heap[a]? := by
  cases hc : heap[p]? with
  | none => simp [writeLeft, hc] at h
  | some c =>
    obtain ⟨heap3, h3, hlen, _, hoth⟩ := writeLeft_spec heap p q c hc
    rw [h3] at h
    cases h
    exact ⟨hlen, hoth⟩

/-- At the exit of the descent loop, `previous` is `nullptr` or the address of a node of
the tree the loop walked in. -/
theorem addLoopH_previous [LinearOrder α] (fuel : Nat) (heap : List (HeapNode α))
    (lo hi : Nat) (t : Node α) (current previous : Option Nat) (direction : Direction)
    (element : α) (exit : Option Nat × Direction)
    (hrep : RepresentsIn lo hi heap current t)
    (hprev : ∀ a, previous = some a → lo ≤ a ∧ a < hi)
    (hrun : addLoopH fuel heap current previous direction element = some exit) :
    ∀ a, exit.1 = some a → lo ≤ a ∧ a < hi := by
  induction fuel generalizing current previous direction t with
  | zero =>
    cases current with
    | none =>
      simp only [addLoopH, Option.some.injEq] at hrun
      rw [← hrun]; exact hprev
    | some a => simp [addLoopH] at hrun
  | succ fuel ih =>
    cases current with
    | none =>
      simp only [addLoopH, Option.some.injEq] at hrun
      rw [← hrun]; exact hprev
    | some a =>
      have hrep0 := hrep
      cases hrep with
      | node _ c l r h1 h2 h3 hl hr =>
        have hnext : ∀ b, some a = some b → lo ≤ b ∧ b < hi := by
          intro b hb
          cases hb
          exact ⟨h1, h2⟩
        simp only [addLoopH, h3, Option.some_bind] at hrun
        split_ifs at hrun
        · exact ih l c.left (some a) Direction.left hl hnext hrun
        · exact ih r c.right (some a) Direction.right hr hnext hrun
        · exact ih _ (some a) (some a) direction hrep0 hnext hrun

/-- The linking step of `add` does not touch an object below the range of addresses of
the nodes of the set it is called on. -/
theorem linkH_frame [LinearOrder α] (fuel : Nat) (heap : List (HeapNode α)) (s : HeapSet)
    (element : α) (lo hi : Nat) (t : Node α) (linked : List (HeapNode α) × Option Nat)
    (hrep : RepresentsIn lo hi heap s.head t) (hlo : lo ≤ hi) (hhi : hi ≤ heap.length)
    (hrun : linkH fuel heap s element = some linked) :
    heap.length ≤ linked.1.length ∧ ∀ a, a < lo → linked.1[a]? = heap[a]? := by
  unfold linkH at hrun
  split_ifs at hrun with h0
  · simp only [Option.some.injEq] at hrun
    rw [← hrun]
    exact ⟨by simp, fun a ha => getElem?_append_one _ _ _ (by omega)⟩
  · cases hloop : addLoopH fuel heap s.head none Direction.unset element with
    | none => simp [hloop] at hrun
    | some exit =>
      have hp := addLoopH_previous fuel heap lo hi t s.head none Direction.unset element exit
        hrep (by intro a ha; cases ha) hloop
      simp only [hloop, Option.some_bind] at hrun
      split at hrun
      · cases hprev : exit.1 with
        | none => simp [hprev] at hrun
        | some previous =>
          obtain ⟨hp1, hp2⟩ := hp previous hprev
          simp only [hprev, Option.some_bind, Option.map_eq_some'] at hrun
          obtain ⟨h, hw, hl⟩ := hrun
          obtain ⟨hlen, hoth⟩ := writeRight_other _ _ _ _ hw
          rw [← hl]
          refine ⟨by simp [hlen], fun a ha => ?_⟩
          rw [hoth a (by omega)]
          exact getElem?_append_one _ _ _ (by omega)
      · cases hprev : exit.1 with
        | none => simp [hprev] at hrun
        | some previous =>
          obtain ⟨hp1, hp2⟩ := hp previous hprev
          simp only [hprev, Option.some_bind, Option.map_eq_some'] at hrun
          obtain ⟨h, hw, hl⟩ := hrun
          obtain ⟨hlen, hoth⟩ := writeLeft_other _ _ _ _ hw
          rw [← hl]
          refine ⟨by simp [hlen], fun a ha => ?_⟩
          rw [hoth a (by omega)]
          exact getElem?_append_one _ _ _ (by omega)
      · simp only [Option.some.injEq] at hrun
        rw [← hrun]
        exact ⟨le_refl _, fun _ _ => rfl⟩

/-- `add` on the heap does not touch an object below the range of addresses of the nodes
of the set it is called on. -/
theorem addH_frame [LinearOrder α] (fuel : Nat) (heap : List (HeapNode α)) (s : HeapSet)
    (element : α) (lo hi : Nat) (t : Node α) (result : List (HeapNode α) × HeapSet)
    (hrep : RepresentsIn lo hi heap s.head t) (hlo : lo ≤ hi) (hhi : hi ≤ heap.length)
    (hrun : addH fuel heap s element = some result) :
    heap.length ≤ result.1.length ∧ ∀ a, a < lo → result.1[a]? = heap[a]? := by
  unfold addH at hrun
  cases hlink : linkH fuel heap s element with
  | none => simp [hlink] at hrun
  | some linked =>
    simp only [hlink, Option.some_bind, Option.map_eq_some'] at hrun
    obtain ⟨h, _, hres⟩ := hrun
    rw [← hres]
    exact linkH_frame fuel heap s element lo hi t linked hrep hlo hhi hlink

end AVLSet

/-! ## AVLSet: the copy, the claim -/

namespace AVLSet

open Node

variable {α : Type}

/-- C12.  `clone` returns a tree of the same shape with the same value at every position.
A copy-constructed and a copy-assigned set have the same `size()`, `height()`, preorder,
inorder and postorder sequences as the original.  On the heap, `clone` of a tree returns,
leaves every object it found as it was, and builds the same tree out of objects it
allocates itself; whatever a later `add` on the set with the cloned tree does, the nodes
of the original are as before, so the original still holds the same tree (its size and
height are members of an object that `add` on the copy does not name). -/
theorem copy_same_queries_and_independent [LinearOrder α] :
    (∀ t : Node α, clone t = t) ∧
    (∀ s : AVLSet α,
      size (copyConstruct s) = size s ∧ height (copyConstruct s) = height s ∧
      preorder (copyConstruct s) = preorder s ∧ inorder (copyConstruct s) = inorder s ∧
      postorder (copyConstruct s) = postorder s) ∧
    (∀ target s : AVLSet α,
      size (copyAssign target s) = size s ∧ height (copyAssign target s) = height s ∧
      preorder (copyAssign target s) = preorder s ∧
      inorder (copyAssign target s) = inorder s ∧
      postorder (copyAssign target s) = postorder s) ∧
    (∀ (heap : List (HeapNode α)) (p : Option Nat) (t : Node α) (fuel : Nat),
      RepresentsIn 0 heap.length heap p t → (in_ t).length ≤ fuel →
      ∃ heap1 p1, cloneH fuel heap p = some (heap1, p1) ∧
        RepresentsIn heap.length heap1.length heap1 p1 (clone t) ∧
        RepresentsIn 0 heap.length heap1 p t ∧
        ∀ (fuel2 : Nat) (h : Int) (n : Nat) (element : α)
          (result : List (HeapNode α) × HeapSet),
          addH fuel2 heap1 { head := p1, treeHeight := h, treeSize := n } element =
            some result →
          RepresentsIn 0 heap.length result.1 p t) := by
  refine ⟨clone_eq, ?_, ?_, ?_⟩
  · intro s
    simp [size, height, preorder, inorder, postorder, copyConstruct, clone_eq]
  · intro target s
    simp [size, height, preorder, inorder, postorder, copyAssign, clone_eq]
  · intro heap p t fuel hrep hf
    obtain ⟨heap1, p1, hc, hlen, hsame, hnew⟩ := cloneH_spec t heap p fuel hrep hf
    have horig : RepresentsIn 0 heap.length heap1 p t :=
      hrep.frame (fun a _ ha => hsame a ha)
    refine ⟨heap1, p1, hc, by rw [clone_eq]; exact hnew, horig, ?_⟩
    intro fuel2 h n element result hrun
    obtain ⟨_, hkeep⟩ := addH_frame fuel2 heap1 { head := p1, treeHeight := h, treeSize := n }
      element heap.length heap1.length t result hnew hlen (le_refl _) hrun
    exact horig.frame (fun a _ ha => hkeep a ha)

/-- The copy claim on a heap holding the single node of the set with the element 1:
`clone` allocates the object at address 1, `add(2)` on the copy allocates the object at
address 2 and writes its address into the object at address 1, and the object at address
0 still is the tree of the original. -/
theorem copy_same_queries_and_independent_witness :
    cloneH 1 [(⟨1, none, none⟩ : HeapNode Nat)] (some 0) =
      some ([⟨1, none, none⟩, ⟨1, none, none⟩], some 1) ∧
    addH 2 [(⟨1, none, none⟩ : HeapNode Nat), ⟨1, none, none⟩]
        { head := some 1, treeHeight := 0, treeSize := 1 } 2 =
      some ([⟨1, none, none⟩, ⟨1, some 2, none⟩, ⟨2, none, none⟩],
        { head := some 1, treeHeight := 1, treeSize := 2 }) ∧
    ∃ heap1 p1, cloneH 1 [(⟨1, none, none⟩ : HeapNode Nat)] (some 0) = some (heap1, p1) ∧
      RepresentsIn 1 heap1.length heap1 p1 (clone (node nullptr 1 nullptr)) ∧
      RepresentsIn 0 1 heap1 (some 0) (node nullptr 1 nullptr) ∧
      ∀ (fuel2 : Nat) (h : Int) (n : Nat) (element : Nat)
        (result : List (HeapNode Nat) × HeapSet),
        addH fuel2 heap1 { head := p1, treeHeight := h, treeSize := n } element =
          some result →
        RepresentsIn 0 1 result.1 (some 0) (node nullptr 1 nullptr) :=
  ⟨by decide, by decide,
    copy_same_queries_and_independent.2.2.2 [(⟨1, none, none⟩ : HeapNode Nat)] (some 0)
      (node nullptr 1 nullptr) 1
      (RepresentsIn.node 0 ⟨1, none, none⟩ nullptr nullptr (by decide) (by decide) rfl
        RepresentsIn.null RepresentsIn.null)
      (by decide)⟩

end AVLSet

/-! ## Lemmas on heights, rotations and the search -/

namespace AVLSet

open Node

variable {α : Type}

theorem maxHeight_eq (t : Node α) : maxHeight t = calculateHeight t + 1 := by
  induction t with
  | nullptr => rfl
  | node left value right ihl ihr =>
    simp only [maxHeight, calculateHeight, ihl, ihr]
    omega

theorem difference_node (left right : Node α) (value : α) :
    difference (node left value right) =
      some (calculateHeight left - calculateHeight right) := by
  simp only [difference, maxHeight_eq]
  congr 1
  omega

theorem calculateHeight_ge (t : Node α) : -1 ≤ calculateHeight t := by
  induction t with
  | nullptr => simp [calculateHeight]
  | node left value right ihl _ =>
    simp only [calculateHeight]
    have := le_max_left (calculateHeight left) (calculateHeight right)
    omega

theorem countNodes_eq (t : Node α) : countNodes t = (in_ t).length := by
  induction t with
  | nullptr => rfl
  | node left value right ihl ihr =>
    simp only [countNodes, in_, ihl, ihr, List.length_append, List.length_cons]
    omega

theorem isBST_of_pairwise [LinearOrder α] (t : Node α)
    (h : (in_ t).Pairwise (fun a b => a < b)) : isBST t = true := by
  induction t with
  | nullptr => rfl
  | node left value right ihl ihr =>
    simp only [in_, List.pairwise_append, List.pairwise_cons, List.mem_cons] at h
    obtain ⟨h1, ⟨h2, h3⟩, h4⟩ := h
    simp only [isBST, Bool.and_eq_true, allValues_iff, decide_eq_true_eq]
    exact ⟨⟨⟨fun x hx => h4 x hx value (Or.inl rfl), h2⟩, ihl h1⟩, ihr h3⟩

theorem in_rrRotation (t t2 : Node α) (h : rrRotation t = some t2) : in_ t2 = in_ t := by
  unfold rrRotation at h
  split at h
  · simp only [Option.some.injEq] at h
    rw [← h]
    simp [in_]
  · simp at h

theorem in_llRotation (t t2 : Node α) (h : llRotation t = some t2) : in_ t2 = in_ t := by
  unfold llRotation at h
  split at h
  · simp only [Option.some.injEq] at h
    rw [← h]
    simp [in_]
  · simp at h

theorem in_lrRotation (t t2 : Node α) (h : lrRotation t = some t2) : in_ t2 = in_ t := by
  cases t with
  | nullptr => simp [lrRotation] at h
  | node left value right =>
    simp only [lrRotation] at h
    cases hr : rrRotation left with
    | none => simp [hr] at h
    | some rotated =>
      simp only [hr, Option.some_bind] at h
      rw [in_llRotation _ _ h]
      simp [in_, in_rrRotation _ _ hr]

theorem in_rlRotation (t t2 : Node α) (h : rlRotation t = some t2) : in_ t2 = in_ t := by
  cases t with
  | nullptr => simp [rlRotation] at h
  | node left value right =>
    simp only [rlRotation] at h
    cases hr : llRotation right with
    | none => simp [hr] at h
    | some rotated =>
      simp only [hr, Option.some_bind] at h
      rw [in_rrRotation _ _ h]
      simp [in_, in_llRotation _ _ hr]

/-- `balance` on a node, with the factor written as the difference of the heights of the
two subtrees. -/
theorem balance_node (left right : Node α) (value : α) :
    balance (node left value right) =
      if calculateHeight left - calculateHeight right > 1 then
        (difference left).bind fun leftFactor =>
          if leftFactor > 0 then llRotation (node left value right)
          else lrRotation (node left value right)
      else if calculateHeight left - calculateHeight right < -1 then
        (difference right).bind fun rightFactor =>
          if rightFactor > 0 then rlRotation (node left value right)
          else rrRotation (node left value right)
      else some (node left value right) := by
  simp only [balance, difference_node, Option.some_bind]

theorem calculateHeight_nonneg_cases (t : Node α) (h : 0 ≤ calculateHeight t) :
    ∃ l v r, t = node l v r := by
  cases t with
  | nullptr => simp [calculateHeight] at h
  | node l v r => exact ⟨l, v, r, rfl⟩

/-- `balance` returns on every node and keeps the inorder sequence. -/
theorem balance_in (left right : Node α) (value : α) :
    ∃ t2, balance (node left value right) = some t2 ∧
      in_ t2 = in_ (node left value right) := by
  rw [balance_node]
  split_ifs with h1 h2
  · have hl := calculateHeight_ge right
    obtain ⟨ll, lv, lr, rfl⟩ := calculateHeight_nonneg_cases left (by omega)
    rw [difference_node]
    simp only [Option.some_bind]
    split_ifs with h3
    · exact ⟨_, rfl, by simp [in_]⟩
    · simp only [calculateHeight] at h1
      have := calculateHeight_ge ll
      obtain ⟨a, b, c, rfl⟩ := calculateHeight_nonneg_cases lr (by omega)
      exact ⟨_, rfl, by simp [in_]⟩
  · have hl := calculateHeight_ge left
    obtain ⟨rl, rv, rr, rfl⟩ := calculateHeight_nonneg_cases right (by omega)
    rw [difference_node]
    simp only [Option.some_bind]
    split_ifs with h3
    · simp only [calculateHeight] at h2
      have := calculateHeight_ge rr
      obtain ⟨a, b, c, rfl⟩ := calculateHeight_nonneg_cases rl (by omega)
      exact ⟨_, rfl, by simp [in_]⟩
    · exact ⟨_, rfl, by simp [in_]⟩
  · exact ⟨_, rfl, rfl⟩

/-- On a tree in search-tree order the search loop of `contains` finds exactly the stored
values. -/
theorem containsLoop_iff [LinearOrder α] (t : Node α) (x : α) (h : isBST t = true) :
    containsLoop t x = true ↔ x ∈ in_ t := by
  induction t with
  | nullptr => simp [containsLoop, in_]
  | node left value right ihl ihr =>
    simp only [isBST, Bool.and_eq_true, allValues_iff, decide_eq_true_eq] at h
    obtain ⟨⟨⟨h1, h2⟩, h3⟩, h4⟩ := h
    simp only [in_, List.mem_append, List.mem_cons]
    rcases lt_trichotomy x value with hlt | heq | hgt
    · have e : containsLoop (node left value right) x = containsLoop left x := by
        simp [containsLoop, hlt]
      rw [e, ihl h3]
      constructor
      · exact Or.inl
      · rintro (hx | hx | hx)
        · exact hx
        · exact absurd hx (ne_of_lt hlt)
        · exact absurd (h2 x hx) (not_lt.2 (le_of_lt hlt))
    · subst heq
      simp [containsLoop]
    · have hn : ¬ value > x := not_lt.2 (le_of_lt hgt)
      have e : containsLoop (node left value right) x = containsLoop right x := by
        simp [containsLoop, hn, hgt]
      rw [e, ihr h4]
      constructor
      · exact fun hx => Or.inr (Or.inr hx)
      · rintro (hx | hx | hx)
        · exact absurd (h1 x hx) (not_lt.2 (le_of_lt hgt))
        · exact absurd hx (ne_of_gt hgt)
        · exact hx

end AVLSet

/-! ## Where `balance` restores the height invariant -/

namespace AVLSet

open Node

variable {α : Type}

/-- C23, amended.  For every tree whose left and right subtrees satisfy the height
invariant at every node and whose balance factor at the root is -2, or is 2 with a left
child whose own factor is not 0, `balance` returns a tree that satisfies the height
invariant at every node.  These are the shapes an insertion into a balanced tree can
leave; search-tree order plays no part in the heights. -/
theorem balance_isBalanced (left right : Node α) (value : α)
    (hl : isBalanced left = true) (hr : isBalanced right = true)
    (hf : (calculateHeight left - calculateHeight right = 2 ∧
        ∀ ll lv lr, left = node ll lv lr → calculateHeight ll - calculateHeight lr ≠ 0) ∨
      calculateHeight left - calculateHeight right = -2) :
    ∃ t2, balance (node left value right) = some t2 ∧ isBalanced t2 = true := by
  rw [balance_node]
  rcases hf with ⟨hf, hz⟩ | hf
  · have hrr := calculateHeight_ge right
    obtain ⟨ll, lv, lr, rfl⟩ := calculateHeight_nonneg_cases left (by omega)
    have hz0 := hz ll lv lr rfl
    rw [if_pos (by omega), difference_node]
    simp only [Option.some_bind]
    simp only [isBalanced, calculateHeight, Bool.and_eq_true, decide_eq_true_eq] at hl hf
    obtain ⟨⟨h1, h2⟩, h3⟩ := hl
    split_ifs with hd
    · refine ⟨_, rfl, ?_⟩
      simp only [isBalanced, calculateHeight, Bool.and_eq_true, decide_eq_true_eq]
      exact ⟨⟨by omega, h2⟩, ⟨by omega, h3⟩, hr⟩
    · have hll := calculateHeight_ge ll
      obtain ⟨a, b, c, rfl⟩ := calculateHeight_nonneg_cases lr (by omega)
      simp only [isBalanced, calculateHeight, Bool.and_eq_true, decide_eq_true_eq] at h3 h1 hf hd hz0
      obtain ⟨⟨k1, k2⟩, k3⟩ := h3
      refine ⟨_, rfl, ?_⟩
      simp only [isBalanced, calculateHeight, Bool.and_eq_true, decide_eq_true_eq]
      exact ⟨⟨by omega, ⟨by omega, h2⟩, k2⟩, ⟨by omega, k3⟩, hr⟩
  · have hll := calculateHeight_ge left
    obtain ⟨rl, rv, rr, rfl⟩ := calculateHeight_nonneg_cases right (by omega)
    rw [if_neg (by omega), if_pos (by omega), difference_node]
    simp only [Option.some_bind]
    simp only [isBalanced, calculateHeight, Bool.and_eq_true, decide_eq_true_eq] at hr hf
    obtain ⟨⟨h1, h2⟩, h3⟩ := hr
    split_ifs with hd
    · have hrr := calculateHeight_ge rr
      obtain ⟨a, b, c, rfl⟩ := calculateHeight_nonneg_cases rl (by omega)
      simp only [isBalanced, calculateHeight, Bool.and_eq_true, decide_eq_true_eq] at h2 h1 hf hd
      obtain ⟨⟨k1, k2⟩, k3⟩ := h2
      refine ⟨_, rfl, ?_⟩
      simp only [isBalanced, calculateHeight, Bool.and_eq_true, decide_eq_true_eq]
      exact ⟨⟨by omega, ⟨by omega, hl⟩, k2⟩, ⟨by omega, k3⟩, h3⟩
    · refine ⟨_, rfl, ?_⟩
      simp only [isBalanced, calculateHeight, Bool.and_eq_true, decide_eq_true_eq]
      exact ⟨⟨by omega, ⟨by omega, hl⟩, h2⟩, h3⟩

/-- The amended claim on the left chain 3, 2, 1: factor 2, left child's factor 1; the
result has root 2 with the children 1 and 3. -/
theorem balance_isBalanced_witness :
    isBalanced (node (node nullptr 1 nullptr) 2 nullptr) = true ∧
    isBalanced (nullptr : Node Nat) = true ∧
    calculateHeight (node (node nullptr 1 nullptr) 2 nullptr) -
        calculateHeight (nullptr : Node Nat) = 2 ∧
    balance (node (node (node nullptr 1 nullptr) 2 nullptr) 3 nullptr) =
      some (node (node nullptr 1 nullptr) 2 (node nullptr 3 nullptr)) ∧
    ∃ t2, balance (node (node (node nullptr 1 nullptr) 2 nullptr) 3 nullptr) = some t2 ∧
      isBalanced t2 = true :=
  ⟨by decide, by decide, by decide, by decide,
    balance_isBalanced (node (node nullptr 1 nullptr) 2 nullptr) nullptr 3
      (by decide) (by decide)
      (Or.inl ⟨by decide, fun ll lv lr h => by cases h; decide⟩)⟩

end AVLSet

/-! ## AVLSet: cached fields, balance, rotations and the guarded search, the claims -/

namespace AVLSet

open Node

variable {α : Type}

/-- C21.  After every sequence of `add` calls of pairwise-distinct elements, `size()` is
the number of nodes of the tree and `height()` is `calculateHeight` of the root: `-1` for
the empty set and `0` for a single element. -/
theorem cached_fields_agree [LinearOrder α] (shouldBalance : Bool) (elements : List α)
    (fuel : Nat) (hd : elements.Nodup) (hf : elements.length ≤ fuel) :
    ∃ s, addAll fuel (new shouldBalance) elements = some s ∧
      size s = countNodes s.head ∧ height s = calculateHeight s.head ∧
      (elements.length = 0 → height s = -1) ∧ (elements.length = 1 → height s = 0) := by
  obtain ⟨s, hs, hp, hz, hh, _⟩ := addAll_spec fuel elements (new shouldBalance) rfl hd
    (by simp [new, in_]) (by simpa [new] using hf) rfl
  have hlen : (in_ s.head).length = elements.length := by
    simpa [new, in_] using hp.length_eq
  refine ⟨s, hs, by rw [size, hz, countNodes_eq], hh, ?_, ?_⟩
  · intro h0
    have hnil : s.head = nullptr := in_eq_nil _ (List.length_eq_zero.1 (by omega))
    rw [height, hh, hnil]
    rfl
  · intro h1
    rw [height, hh]
    cases hhead : s.head with
    | nullptr =>
      rw [hhead] at hlen
      simp [in_] at hlen
      omega
    | node left value right =>
      rw [hhead] at hlen
      simp only [in_, List.length_append, List.length_cons] at hlen
      have hl : left = nullptr := in_eq_nil _ (List.length_eq_zero.1 (by omega))
      have hr : right = nullptr := in_eq_nil _ (List.length_eq_zero.1 (by omega))
      rw [hl, hr]
      rfl

/-- The cached fields after `add(2)`, `add(1)`, `add(3)`, `add(4)`: size 4, height 2. -/
theorem cached_fields_agree_witness :
    [2, 1, 3, 4].Nodup ∧ [2, 1, 3, 4].length ≤ 4 ∧
    (addAll 4 (new true) [2, 1, 3, 4]).map size = some 4 ∧
    (addAll 4 (new true) [2, 1, 3, 4]).map height = some 2 ∧
    ∃ s, addAll 4 (new true) [2, 1, 3, 4] = some s ∧
      size s = countNodes s.head ∧ height s = calculateHeight s.head :=
  ⟨by decide, by decide, by decide, by decide,
    (cached_fields_agree true [2, 1, 3, 4] 4 (by decide) (by decide)).imp
      (fun _ h => ⟨h.1, h.2.1, h.2.2.1⟩)⟩

/-- C22 as stated fails on the code.  On the right chain 1, 2, 3 the factor is -2 and the
factor of the right child is -1, which is not `>= 0`: the claim names the right-left
double rotation, which faults there, and `balance` applies the right-right rotation.  On
the tree with root 1, right child 3 and 2 as left child of 3 the factor of the right child
is 1, which is `>= 0`: the claim names the right-right rotation and `balance` applies the
right-left double rotation. -/
theorem balance_right_rule_differs :
    difference (node nullptr 1 (node nullptr 2 (node nullptr 3 nullptr))) = some (-2) ∧
    difference (node nullptr 2 (node nullptr 3 nullptr)) = some (-1) ∧
    rlRotation (node nullptr 1 (node nullptr 2 (node nullptr 3 nullptr))) = none ∧
    balance (node nullptr 1 (node nullptr 2 (node nullptr 3 nullptr))) ≠
      rlRotation (node nullptr 1 (node nullptr 2 (node nullptr 3 nullptr))) ∧
    balance (node nullptr 1 (node nullptr 2 (node nullptr 3 nullptr))) =
      rrRotation (node nullptr 1 (node nullptr 2 (node nullptr 3 nullptr))) ∧
    difference (node nullptr 1 (node (node nullptr 2 nullptr) 3 nullptr)) = some (-2) ∧
    difference (node (node nullptr 2 nullptr) 3 nullptr) = some 1 ∧
    balance (node nullptr 1 (node (node nullptr 2 nullptr) 3 nullptr)) ≠
      rrRotation (node nullptr 1 (node (node nullptr 2 nullptr) 3 nullptr)) ∧
    balance (node nullptr 1 (node (node nullptr 2 nullptr) 3 nullptr)) =
      rlRotation (node nullptr 1 (node (node nullptr 2 nullptr) 3 nullptr)) := by
  decide

/-- C22, amended.  With balance factor = height(left) - height(right), heights as
`calculateHeight` gives them: for a node with factor `> 1` the left child exists, and
`balance` applies the left-left rotation when the left child's factor is `> 0` and the
left-right double rotation when it is `< 0`; with factor `< -1` the right child exists,
and `balance` applies the right-left double rotation when the right child's factor is
`> 0` and the right-right rotation when it is `<= 0`; with factor in {-1, 0, 1} it returns
the node unchanged. -/
theorem balance_selects_rotation (left right : Node α) (value : α) :
    difference (node left value right) =
      some (calculateHeight left - calculateHeight right) ∧
    (calculateHeight left - calculateHeight right > 1 →
      ∃ ll lv lr, left = node ll lv lr ∧
        (calculateHeight ll - calculateHeight lr > 0 →
          balance (node left value right) = llRotation (node left value right)) ∧
        (calculateHeight ll - calculateHeight lr < 0 →
          balance (node left value right) = lrRotation (node left value right))) ∧
    (calculateHeight left - calculateHeight right < -1 →
      ∃ rl rv rr, right = node rl rv rr ∧
        (calculateHeight rl - calculateHeight rr > 0 →
          balance (node left value right) = rlRotation (node left value right)) ∧
        (calculateHeight rl - calculateHeight rr ≤ 0 →
          balance (node left value right) = rrRotation (node left value right))) ∧
    (-1 ≤ calculateHeight left - calculateHeight right →
      calculateHeight left - calculateHeight right ≤ 1 →
      balance (node left value right) = some (node left value right)) := by
  refine ⟨difference_node left right value, ?_, ?_, ?_⟩
  · intro h
    have := calculateHeight_ge right
    obtain ⟨ll, lv, lr, rfl⟩ := calculateHeight_nonneg_cases left (by omega)
    refine ⟨ll, lv, lr, rfl, ?_, ?_⟩
    · intro h2
      rw [balance_node, if_pos h, difference_node]
      simp only [Option.some_bind, if_pos h2]
    · intro h2
      have h3 : ¬ calculateHeight ll - calculateHeight lr > 0 := by omega
      rw [balance_node, if_pos h, difference_node]
      simp only [Option.some_bind, if_neg h3]
  · intro h
    have := calculateHeight_ge left
    obtain ⟨rl, rv, rr, rfl⟩ := calculateHeight_nonneg_cases right (by omega)
    refine ⟨rl, rv, rr, rfl, ?_, ?_⟩
    · intro h2
      rw [balance_node, if_neg (by omega), if_pos h, difference_node]
      simp only [Option.some_bind, if_pos h2]
    · intro h2
      have h3 : ¬ calculateHeight rl - calculateHeight rr > 0 := by omega
      rw [balance_node, if_neg (by omega), if_pos h, difference_node]
      simp only [Option.some_bind, if_neg h3]
  · intro h1 h2
    rw [balance_node, if_neg (by omega), if_neg (by omega)]

/-- The selection rule on the left chain 3, 2, 1: factor 2, left child's factor 1, the
left-left rotation, which gives the tree with root 2. -/
theorem balance_selects_rotation_witness :
    calculateHeight (node (node nullptr 1 nullptr) 2 nullptr) -
        calculateHeight (nullptr : Node Nat) > 1 ∧
    llRotation (node (node (node nullptr 1 nullptr) 2 nullptr) 3 nullptr) =
      some (node (node nullptr 1 nullptr) 2 (node nullptr 3 nullptr)) ∧
    ∃ ll lv lr, node (node nullptr 1 nullptr) 2 nullptr = node ll lv lr ∧
      (calculateHeight ll - calculateHeight lr > 0 →
        balance (node (node (node nullptr 1 nullptr) 2 nullptr) 3 nullptr) =
          llRotation (node (node (node nullptr 1 nullptr) 2 nullptr) 3 nullptr)) ∧
      (calculateHeight ll - calculateHeight lr < 0 →
        balance (node (node (node nullptr 1 nullptr) 2 nullptr) 3 nullptr) =
          lrRotation (node (node (node nullptr 1 nullptr) 2 nullptr) 3 nullptr)) :=
  ⟨by decide, by decide,
    (balance_selects_rotation (node (node nullptr 1 nullptr) 2 nullptr) nullptr 3).2.1
      (by decide)⟩

/-- C23 as stated fails on the code.  The tree with root 6, left subtree 3 over (1 with
right child 2) and (4 with right child 5), and right child 7 is a binary search tree; both its
subtrees satisfy the height invariant at every node and its factor is 2.  The left
child's factor is 0, which is not `> 0`, so `balance` applies the left-right double
rotation: the result has root 4, whose left child 3 has a left subtree of height 1 and an
empty right subtree.  The left-left rotation would have restored the invariant, and on
the mirror image, where the right child's factor is 0, `balance` applies the single
right-right rotation and does restore it. -/
theorem balance_leaves_imbalance :
    isBST (node (node (node nullptr 1 (node nullptr 2 nullptr)) 3
        (node nullptr 4 (node nullptr 5 nullptr))) 6 (node nullptr 7 nullptr)) = true ∧
    isBalanced (node (node nullptr 1 (node nullptr 2 nullptr)) 3
        (node nullptr 4 (node nullptr 5 nullptr))) = true ∧
    isBalanced (node nullptr 7 nullptr) = true ∧
    difference (node (node (node nullptr 1 (node nullptr 2 nullptr)) 3
        (node nullptr 4 (node nullptr 5 nullptr))) 6 (node nullptr 7 nullptr)) = some 2 ∧
    difference (node (node nullptr 1 (node nullptr 2 nullptr)) 3
        (node nullptr 4 (node nullptr 5 nullptr))) = some 0 ∧
    balance (node (node (node nullptr 1 (node nullptr 2 nullptr)) 3
        (node nullptr 4 (node nullptr 5 nullptr))) 6 (node nullptr 7 nullptr)) =
      some (node (node (node nullptr 1 (node nullptr 2 nullptr)) 3 nullptr) 4
        (node (node nullptr 5 nullptr) 6 (node nullptr 7 nullptr))) ∧
    isBalanced (node (node (node nullptr 1 (node nullptr 2 nullptr)) 3 nullptr) 4
        (node (node nullptr 5 nullptr) 6 (node nullptr 7 nullptr))) = false ∧
    (llRotation (node (node (node nullptr 1 (node nullptr 2 nullptr)) 3
        (node nullptr 4 (node nullptr 5 nullptr))) 6 (node nullptr 7 nullptr))).map
      isBalanced = some true ∧
    difference (node (node nullptr 1 nullptr) 2
        (node (node (node nullptr 3 nullptr) 4 nullptr) 5
          (node (node nullptr 6 nullptr) 7 nullptr))) = some (-2) ∧
    difference (node (node (node nullptr 3 nullptr) 4 nullptr) 5
        (node (node nullptr 6 nullptr) 7 nullptr)) = some 0 ∧
    (balance (node (node nullptr 1 nullptr) 2
        (node (node (node nullptr 3 nullptr) 4 nullptr) 5
          (node (node nullptr 6 nullptr) 7 nullptr)))).map isBalanced = some true := by
  decide

/-- C24.  Each of the four rotations is defined when its pivot exists (for a double
rotation also the inner child of the pivot) and returns a tree with the same inorder
sequence as its argument.  `balance` returns on every node, with the same inorder
sequence, and keeps binary-search-tree order. -/
theorem rotations_keep_inorder [LinearOrder α] :
    (∀ (l tl tr : Node α) (v tv : α), ∃ t2,
      rrRotation (node l v (node tl tv tr)) = some t2 ∧
        in_ t2 = in_ (node l v (node tl tv tr))) ∧
    (∀ (tl tr r : Node α) (tv v : α), ∃ t2,
      llRotation (node (node tl tv tr) v r) = some t2 ∧
        in_ t2 = in_ (node (node tl tv tr) v r)) ∧
    (∀ (tl il ir r : Node α) (tv iv v : α), ∃ t2,
      lrRotation (node (node tl tv (node il iv ir)) v r) = some t2 ∧
        in_ t2 = in_ (node (node tl tv (node il iv ir)) v r)) ∧
    (∀ (l il ir tr : Node α) (v iv tv : α), ∃ t2,
      rlRotation (node l v (node (node il iv ir) tv tr)) = some t2 ∧
        in_ t2 = in_ (node l v (node (node il iv ir) tv tr))) ∧
    (∀ t t2 : Node α,
      (rrRotation t = some t2 ∨ llRotation t = some t2 ∨ lrRotation t = some t2 ∨
        rlRotation t = some t2) → in_ t2 = in_ t) ∧
    (∀ (left right : Node α) (value : α), ∃ t2,
      balance (node left value right) = some t2 ∧ in_ t2 = in_ (node left value right) ∧
        (isBST (node left value right) = true → isBST t2 = true)) := by
  refine ⟨?_, ?_, ?_, ?_, ?_, ?_⟩
  · intro l tl tr v tv
    exact ⟨_, rfl, by simp [in_]⟩
  · intro tl tr r tv v
    exact ⟨_, rfl, by simp [in_]⟩
  · intro tl il ir r tv iv v
    exact ⟨_, rfl, by simp [in_]⟩
  · intro l il ir tr v iv tv
    exact ⟨_, rfl, by simp [in_]⟩
  · intro t t2 h
    rcases h with h | h | h | h
    · exact in_rrRotation t t2 h
    · exact in_llRotation t t2 h
    · exact in_lrRotation t t2 h
    · exact in_rlRotation t t2 h
  · intro left right value
    obtain ⟨t2, h1, h2⟩ := balance_in left right value
    refine ⟨t2, h1, h2, fun hb => ?_⟩
    apply isBST_of_pairwise
    rw [h2]
    exact isBST_pairwise _ hb

/-- The rotation claim on the tree with root 3, left child 1 and 2 as right child of 1:
the left-right double rotation gives root 2 with children 1 and 3, inorder 1, 2, 3. -/
theorem rotations_keep_inorder_witness :
    lrRotation (node (node nullptr 1 (node nullptr 2 nullptr)) 3 nullptr) =
      some (node (node nullptr 1 nullptr) 2 (node nullptr 3 nullptr)) ∧
    in_ (node (node nullptr 1 nullptr) 2 (node nullptr 3 nullptr)) =
      in_ (node (node nullptr 1 (node nullptr 2 nullptr)) 3 nullptr) :=
  ⟨by decide,
    rotations_keep_inorder.2.2.2.2.1 (node (node nullptr 1 (node nullptr 2 nullptr)) 3 nullptr)
      (node (node nullptr 1 nullptr) 2 (node nullptr 3 nullptr))
      (Or.inr (Or.inr (Or.inl (by decide))))⟩

/-- C25.  On a set whose tree is in binary-search-tree order and whose root, the root's
left child and that child's right child all exist, `contains(x)` dereferences no
`nullptr` and returns true exactly when `x` is a value stored in the tree. -/
theorem contains_defined_and_correct [LinearOrder α] (s : AVLSet α) (x : α)
    (ll lrl lrr right : Node α) (lv lrv v : α)
    (hhead : s.head = node (node ll lv (node lrl lrv lrr)) v right)
    (hbst : isBST s.head = true) :
    ∃ b, contains s x = some b ∧ (b = true ↔ x ∈ in_ s.head) := by
  refine ⟨containsLoop s.head x, ?_, containsLoop_iff s.head x hbst⟩
  simp [contains, hhead, difference, leftRightValue]

/-- The guarded search on the set built by `add(3)`, `add(1)`, `add(2)`: the root 3 has
the left child 1, whose right child is 2; `contains(2)` is true and `contains(4)` is
false. -/
theorem contains_defined_and_correct_witness :
    addAll 3 (new true) [3, 1, 2] =
      some { head := node (node nullptr 1 (node nullptr 2 nullptr)) 3 nullptr,
             treeHeight := 2, treeSize := 3 } ∧
    contains { head := node (node nullptr 1 (node nullptr 2 nullptr)) 3 nullptr,
               treeHeight := 2, treeSize := 3 } 2 = some true ∧
    contains { head := node (node nullptr 1 (node nullptr 2 nullptr)) 3 nullptr,
               treeHeight := 2, treeSize := 3 } 4 = some false ∧
    ∃ b, contains { head := node (node nullptr 1 (node nullptr 2 nullptr)) 3 nullptr,
                    treeHeight := 2, treeSize := 3 } 2 = some b ∧
      (b = true ↔ 2 ∈ in_ (node (node nullptr 1 (node nullptr 2 nullptr)) 3 nullptr)) :=
  ⟨by decide, by decide, by decide,
    contains_defined_and_correct
      { head := node (node nullptr 1 (node nullptr 2 nullptr)) 3 nullptr,
        treeHeight := 2, treeSize := 3 } 2 nullptr nullptr nullptr nullptr 1 2 3 rfl
      (by decide)⟩

end AVLSet
